import Mathlib

/-!
Lexer of the DHCP configuration language (`lexer.go`).

A shallow embedding of the hand-written lexer: the buffered reader is the list of
bytes not yet read, a `*lexToken` is an `Option lexToken` (`none` is the nil
pointer), a slice is a list, and a run-time panic (index out of range, nil
dereference) is the result `none` of the operation that raises it.
-/

namespace Dhcp

/-- One byte of input, with the wrap-around arithmetic of Go's `byte`. -/
abbrev Byte := Fin 256

/-- Modelled from the spec: the closed set of token kinds, whose declaration is not in
`lexer.go`. The six kinds the lexer names keep their names; `other n` stands for every
further constant of the declaration (identifier and keyword kinds). -/
inductive token where
  | EOF
  | ILLEGAL
  | STRING
  | NUMBER
  | IP_ADDRESS
  | COMMENT
  | other (n : Nat)
  deriving DecidableEq

/-- The `value interface{}` field of a token: nil, a Go string, an `int`, or a `net.IP`
(a byte slice). -/
inductive Value where
  | nil
  | str (s : List Byte)
  | int (n : Int)
  | ip (p : List Byte)
  deriving DecidableEq

/-- Modelled from the spec: the token record, whose declaration is not in `lexer.go`;
the lexer reads and writes its `token`, `value` and `line` fields. -/
structure lexToken where
  token : token
  value : Value
  line : Nat
  deriving DecidableEq

/-- What `lexer.go` takes from the rest of the package, as parameters: the keyword table
`lookup`, and the zero value of the kind type, which a `&lexToken{}` literal carries
until a kind is assigned. -/
structure Decls where
  lookup : List Byte → token
  zeroKind : token

/-- The lexer record. `r` is the input the reader has not delivered yet. -/
structure lexer where
  line : Nat
  r : List Byte
  buffer : List lexToken
  prev : Option lexToken
  readPrev : Bool
  deriving DecidableEq

/-- `newLexer`: line 1, every other field at its zero value. -/
def newLexer (r : List Byte) : lexer :=
  { line := 1, r := r, buffer := [], prev := none, readPrev := false }

/-- `unread`: sets the re-read flag. -/
def unread (l : lexer) : lexer :=
  { l with readPrev := true }

/-- `unicode.IsDigit` on a rune below 256: the ASCII digits. -/
def isNumber (b : Byte) : Bool :=
  decide (48 ≤ b.val ∧ b.val ≤ 57)

/-- `unicode.IsLetter` on a rune below 256: the letter entries of the Latin-1 property
table, that is A-Z, a-z, U+00AA, U+00B5, U+00BA, U+00C0-U+00D6, U+00D8-U+00F6 and
U+00F8-U+00FF. -/
def isLetter (b : Byte) : Bool :=
  decide ((65 ≤ b.val ∧ b.val ≤ 90) ∨ (97 ≤ b.val ∧ b.val ≤ 122) ∨ b.val = 170 ∨
    b.val = 181 ∨ b.val = 186 ∨ (192 ≤ b.val ∧ b.val ≤ 214) ∨
    (216 ≤ b.val ∧ b.val ≤ 246) ∨ 248 ≤ b.val)

/-- `unicode.IsSpace` on a rune below 256: tab, newline, vertical tab, form feed,
carriage return, space, U+0085 and U+00A0. -/
def isWhitespace (b : Byte) : Bool :=
  decide (b.val = 9 ∨ b.val = 10 ∨ b.val = 11 ∨ b.val = 12 ∨ b.val = 13 ∨ b.val = 32 ∨
    b.val = 133 ∨ b.val = 160)

/-- Loop of `consumeString`: `buf` is the bytes captured so far. The result is the
returned token slice (empty for the `nil` returned at end of input) and the input
left in the reader. -/
def consumeStringLoop (buf : List Byte) : List Byte → List lexToken × List Byte
  | [] => ([], [])
  | b :: r =>
    if b = 34 then ([{ token := token.STRING, value := Value.str buf, line := 0 }], r)
    else consumeStringLoop (buf ++ [b]) r

/-- `consumeString`, entered after the opening double quote has been read. -/
def consumeString (r : List Byte) : List lexToken × List Byte :=
  consumeStringLoop [] r

/-- Loop of `consumeLine`. At end of input the function returns `nil`, which
`string(line)` turns into the empty string; a newline is put back by `UnreadByte`. -/
def consumeLineLoop (buf : List Byte) : List Byte → List Byte × List Byte
  | [] => ([], [])
  | b :: r =>
    if b = 10 then (buf, b :: r)
    else consumeLineLoop (buf ++ [b]) r

/-- `consumeLine`, entered after the `#` has been read. -/
def consumeLine (r : List Byte) : List Byte × List Byte :=
  consumeLineLoop [] r

/-- Loop of `consumeIdent`: captures up to the first whitespace byte, which is put
back; at end of input the function returns `nil`. -/
def consumeIdentLoop (buf : List Byte) : List Byte → Option (List Byte) × List Byte
  | [] => (none, [])
  | b :: r =>
    if isWhitespace b then (some buf, b :: r)
    else consumeIdentLoop (buf ++ [b]) r

/-- `consumeIdent`: one token whose kind is `lookup` of the captured text. -/
def consumeIdent (d : Decls) (r : List Byte) : List lexToken × List Byte :=
  match consumeIdentLoop [] r with
  | (none, r') => ([], r')
  | (some buf, r') => ([{ token := d.lookup buf, value := Value.str buf, line := 0 }], r')

/-! ### Standard-library functions called by the numeric scanner -/

/-- Loop of `net.dtoi` over the leading digits: `n` is the value so far, `i` the number
of bytes consumed. `none` is the result `ok = false` (no digit, or a value reaching
`big = 0xFFFFFF`). -/
def dtoiLoop (n i : Nat) : List Byte → Option (Nat × Nat)
  | [] => if i = 0 then none else some (n, i)
  | c :: s =>
    if 48 ≤ c.val ∧ c.val ≤ 57 then
      if n * 10 + (c.val - 48) ≥ 0xFFFFFF then none
      else dtoiLoop (n * 10 + (c.val - 48)) (i + 1) s
    else if i = 0 then none else some (n, i)

/-- `net.dtoi`: decimal to integer; the value and the number of bytes consumed. -/
def dtoi (s : List Byte) : Option (Nat × Nat) :=
  dtoiLoop 0 0 s

/-- `net.IPv4`: the 16-byte form of the address a.b.c.d. -/
def IPv4 (a b c d : Byte) : List Byte :=
  [0, 0, 0, 0, 0, 0, 0, 0, 0, 0, 255, 255, a, b, c, d]

/-- Loop of `net.parseIPv4`: `k` octets remain to be parsed, `i` is the loop index,
`p` the octets parsed so far. Returns the octets and the unparsed text. -/
def parseIPv4Loop : Nat → Nat → List Byte → List Byte → Option (List Byte × List Byte)
  | 0, _, s, p => some (p, s)
  | k + 1, i, s, p =>
    if s.length = 0 then none
    else
      let s1 : Option (List Byte) :=
        if i > 0 then (if s.head? ≠ some 46 then none else some s.tail) else some s
      match s1 with
      | none => none
      | some s1 =>
        match dtoi s1 with
        | none => none
        | some (n, c) =>
          if n > 0xFF then none
          else if c > 1 ∧ s1.head? = some 48 then none
          else parseIPv4Loop k (i + 1) (s1.drop c) (p ++ [Fin.ofNat n])

/-- `net.parseIPv4`: four dot-separated decimal octets, none above 255, none with a
leading zero, and nothing after them. -/
def parseIPv4 (s : List Byte) : Option (List Byte) :=
  match parseIPv4Loop 4 0 s [] with
  | some ([a, b, c, d], []) => some (IPv4 a b c d)
  | _ => none

/-- `net.parseIPv6` on text without a colon. Every IPv6 form holds a colon, and the
numeric scanner captures only digits, `.` and `/`, so on every text it passes on this
parser returns nil; the colon forms are not embedded. -/
def parseIPv6 (_s : List Byte) : Option (List Byte) :=
  none

/-- `net.ParseIP s`: dispatch on the first `.` or `:` found in the text; the second
argument is the part of `s` still to be searched. -/
def ParseIPFrom (s : List Byte) : List Byte → Option (List Byte)
  | [] => none
  | c :: t =>
    if c = 46 then parseIPv4 s
    else if c = 58 then parseIPv6 s
    else ParseIPFrom s t

/-- `net.ParseIP`. -/
def ParseIP (s : List Byte) : Option (List Byte) :=
  ParseIPFrom s s

/-- Loop of `net.CIDRMask` over the `k` remaining mask bytes, `n` one bits left. -/
def CIDRMaskLoop : Nat → Nat → List Byte
  | 0, _ => []
  | k + 1, n =>
    if n ≥ 8 then 255 :: CIDRMaskLoop k (n - 8)
    else Fin.ofNat (255 - (255 >>> n)) :: CIDRMaskLoop k 0

/-- `net.CIDRMask ones bits` for the two supported widths. -/
def CIDRMask (ones bits : Nat) : Option (List Byte) :=
  if bits ≠ 32 ∧ bits ≠ 128 then none
  else if ones > bits then none
  else some (CIDRMaskLoop (bits / 8) ones)

/-- Text before the first `/` and text after it (the index search and the two slices
of `ParseCIDR`); `none` when there is no `/`. -/
def cutSlash : List Byte → Option (List Byte × List Byte)
  | [] => none
  | c :: t =>
    if c = 47 then some ([], t)
    else match cutSlash t with
      | none => none
      | some (a, m) => some (c :: a, m)

/-- `net.ParseCIDR`: the address and the mask of the network (`network.Mask`); `none`
is a non-nil error. -/
def ParseCIDR (s : List Byte) : Option (List Byte × List Byte) :=
  match cutSlash s with
  | none => none
  | some (addr, mask) =>
    let r : Option (List Byte) × Nat :=
      match parseIPv4 addr with
      | some ip => (some ip, 4)
      | none => (parseIPv6 addr, 16)
    match r.1, dtoi mask with
    | some ip, some (n, i) =>
      if i ≠ mask.length ∨ n > 8 * r.2 then none
      else match CIDRMask n (8 * r.2) with
        | some m => some (ip, m)
        | none => none
    | _, _ => none

/-- Errors of package `strconv`. -/
inductive NumError where
  | ErrSyntax
  | ErrRange
  deriving DecidableEq

/-- Loop of `strconv.ParseUint s 10 64` on the unsigned 64-bit accumulator `n`; on a
range error the returned value is `maxVal`. -/
def ParseUintLoop (n : Nat) : List Byte → Nat × Option NumError
  | [] => (n, none)
  | c :: s =>
    if 48 ≤ c.val ∧ c.val ≤ 57 then
      if n ≥ (2 ^ 64 - 1) / 10 + 1 then (2 ^ 64 - 1, some NumError.ErrRange)
      else
        let n10 := (n * 10) % 2 ^ 64
        let n1 := (n10 + (c.val - 48)) % 2 ^ 64
        if n1 < n10 then (2 ^ 64 - 1, some NumError.ErrRange)
        else ParseUintLoop n1 s
    else (0, some NumError.ErrSyntax)

/-- `strconv.ParseUint s 10 64`. -/
def ParseUint (s : List Byte) : Nat × Option NumError :=
  if s = [] then (0, some NumError.ErrSyntax) else ParseUintLoop 0 s

/-- `strconv.ParseInt s 10 0` with a 64-bit `int`. -/
def ParseInt (s : List Byte) : Int × Option NumError :=
  if s = [] then (0, some NumError.ErrSyntax)
  else
    let neg : Bool := s.head? = some 45
    let s1 := if s.head? = some 43 ∨ s.head? = some 45 then s.tail else s
    match ParseUint s1 with
    | (_, some NumError.ErrSyntax) => (0, some NumError.ErrSyntax)
    | (un, _) =>
      if !neg ∧ un ≥ 2 ^ 63 then (2 ^ 63 - 1, some NumError.ErrRange)
      else if neg ∧ un > 2 ^ 63 then (-(2 ^ 63), some NumError.ErrRange)
      else (if neg then -(un : Int) else (un : Int), none)

/-- Digit loop of the fast path of `strconv.Atoi`: `ch -= 48` wraps in a byte. -/
def AtoiFastLoop (n : Int) : List Byte → Option Int
  | [] => some n
  | ch :: s =>
    if (ch - 48 : Byte).val > 9 then none
    else AtoiFastLoop (n * 10 + ((ch - 48 : Byte).val : Int)) s

/-- `strconv.Atoi` with a 64-bit `int`: the fast path for texts of 1 to 18 bytes, else
`ParseInt`. `none` is a non-nil error. -/
def Atoi (s : List Byte) : Option Int :=
  if 0 < s.length ∧ s.length < 19 then
    let s1 := if s.head? = some 45 ∨ s.head? = some 43 then s.tail else s
    if s1.length < 1 then none
    else match AtoiFastLoop 0 s1 with
      | none => none
      | some n => some (if s.head? = some 45 then -n else n)
  else
    match ParseInt s with
    | (i64, none) => some i64
    | (_, some _) => none

/-! ### The numeric scanner and `next` -/

/-- Loop of `consumeNumeric`: captures digits, `.` and `/`, counting the dots and
noting a slash; the first other byte is put back. `none` is the `nil` returned at end
of input. -/
def consumeNumericLoop (buf : List Byte) (dotCount : Nat) (hasSlash : Bool) :
    List Byte → Option (List Byte × Nat × Bool × List Byte)
  | [] => none
  | b :: r =>
    if isNumber b then consumeNumericLoop (buf ++ [b]) dotCount hasSlash r
    else if b = 46 then consumeNumericLoop (buf ++ [b]) (dotCount + 1) hasSlash r
    else if b = 47 then consumeNumericLoop (buf ++ [b]) dotCount true r
    else some (buf, dotCount, hasSlash, b :: r)

/-- Classification of the captured text by `consumeNumeric`. `toks[0]` starts as
`&lexToken{}`: zero kind, nil value. -/
def classifyNumeric (d : Decls) (buf : List Byte) (dotCount : Nat) (hasSlash : Bool) :
    List lexToken :=
  if hasSlash ∧ dotCount = 3 then
    match ParseCIDR buf with
    | none => [{ token := token.ILLEGAL, value := Value.nil, line := 0 }]
    | some (ip, mask) =>
      [{ token := token.IP_ADDRESS, value := Value.ip ip, line := 0 },
       { token := token.IP_ADDRESS, value := Value.ip mask, line := 0 }]
  else if dotCount = 3 then
    match ParseIP buf with
    | none => [{ token := token.ILLEGAL, value := Value.nil, line := 0 }]
    | some ip => [{ token := token.IP_ADDRESS, value := Value.ip ip, line := 0 }]
  else if dotCount = 0 then
    match Atoi buf with
    | none => [{ token := token.ILLEGAL, value := Value.nil, line := 0 }]
    | some num => [{ token := token.NUMBER, value := Value.int num, line := 0 }]
  else [{ token := d.zeroKind, value := Value.nil, line := 0 }]

/-- `consumeNumeric`, entered with the first digit put back in the reader. -/
def consumeNumeric (d : Decls) (r : List Byte) : List lexToken × List Byte :=
  match consumeNumericLoop [] 0 false r with
  | none => ([], [])
  | some (buf, dotCount, hasSlash, r') => (classifyNumeric d buf dotCount hasSlash, r')

/-- How the classification loop of `next` ends: at end of input, or with the token
slice of a sub-scanner; both with the line counter, the second with the input left. -/
inductive Scan where
  | eof (line : Nat)
  | toks (tok : List lexToken) (line : Nat) (r : List Byte)
  deriving DecidableEq

/-- The classification loop of `next`. -/
def scan (d : Decls) (line : Nat) : List Byte → Scan
  | [] => Scan.eof line
  | c :: r =>
    if c = 34 then Scan.toks (consumeString r).1 line (consumeString r).2
    else if isNumber c then
      Scan.toks (consumeNumeric d (c :: r)).1 line (consumeNumeric d (c :: r)).2
    else if c = 10 then scan d (line + 1) r
    else if c = 35 then
      Scan.toks [{ token := token.COMMENT, value := Value.str (consumeLine r).1, line := 0 }]
        line (consumeLine r).2
    else if isLetter c then
      Scan.toks (consumeIdent d (c :: r)).1 line (consumeIdent d (c :: r)).2
    else scan d line r

/-- `next`. The outer `none` is the index-out-of-range panic of `tok[0]` on an empty
slice; the returned pointer is `none` when `l.prev` is nil. The end-of-input token is
returned before any line is assigned and without being recorded in `prev`. -/
def next (d : Decls) (l : lexer) : Option (Option lexToken × lexer) :=
  if l.readPrev then some (l.prev, { l with readPrev := false })
  else
    match l.buffer with
    | tok :: rest => some (some tok, { l with buffer := rest, prev := some tok })
    | [] =>
      match scan d l.line l.r with
      | Scan.eof line =>
        some (some { token := token.EOF, value := Value.nil, line := 0 },
          { l with line := line, r := [] })
      | Scan.toks tok line r =>
        match tok.map (fun t => { t with line := line }) with
        | [] => none
        | t0 :: more =>
          some (some t0,
            { l with line := line, r := r,
                     buffer := if more.length > 0 then more else l.buffer,
                     prev := some t0 })

/-- How a run of `all` ends. -/
inductive Run where
  | outOfFuel
  | panic
  | ret (tokens : List lexToken)
  deriving DecidableEq

/-- Loop of `all` with a bound on the number of iterations. Reading `tok.token` of a
nil pointer panics. -/
def allLoop (d : Decls) : Nat → lexer → List lexToken → Run
  | 0, _, _ => Run.outOfFuel
  | fuel + 1, l, tokens =>
    match next d l with
    | none => Run.panic
    | some (none, _) => Run.panic
    | some (some tok, l') =>
      if tok.token = token.EOF then Run.ret tokens
      else allLoop d fuel l' (tokens ++ [tok])

/-- `all`: the loop never needs more iterations than twice the unread input plus the
buffered tokens plus two. -/
def all (d : Decls) (l : lexer) : Run :=
  allLoop d (2 * l.r.length + l.buffer.length + 2) l []

/-- Work left for `all`: two units for each unread byte (a byte run can leave one token
in the overflow buffer), one for each buffered token, one for a pending re-read. -/
def pending (l : lexer) : Nat :=
  2 * l.r.length + l.buffer.length + (if l.readPrev then 1 else 0)

/-- Value of a run of decimal digits read from the left, starting from `n`. -/
def decimalFrom (n : Nat) (ds : List Byte) : Nat :=
  ds.foldl (fun acc c => acc * 10 + (c.val - 48)) n

/-- Decimal value of a run of ASCII digits; leading zeros do not count. -/
def decimalValue (ds : List Byte) : Nat :=
  decimalFrom 0 ds

/-- ASCII digit for the last decimal digit of `k`. -/
def digitByte (k : Nat) : Byte :=
  Fin.ofNat (48 + k % 10)

/-- Decimal text, without leading zeros, of a number below 1000. -/
def octetText (n : Nat) : List Byte :=
  if n < 10 then [digitByte n]
  else if n < 100 then [digitByte (n / 10), digitByte n]
  else [digitByte (n / 100), digitByte (n / 10), digitByte n]

/-- Text of the dotted quad a.b.c.d, each octet in decimal without leading zeros. -/
def dottedQuad (a b c d : Byte) : List Byte :=
  octetText a.val ++ 46 :: (octetText b.val ++ 46 :: (octetText c.val ++ 46 :: octetText d.val))

/-- Subnet mask with `n` leading one bits: the four bytes, most significant first, of
the 32-bit number 2^32 - 2^(32 - n). -/
def maskOfOnes (n : Nat) : List Byte :=
  [Fin.ofNat ((2 ^ 32 - 2 ^ (32 - n)) / 2 ^ 24), Fin.ofNat ((2 ^ 32 - 2 ^ (32 - n)) / 2 ^ 16),
   Fin.ofNat ((2 ^ 32 - 2 ^ (32 - n)) / 2 ^ 8), Fin.ofNat (2 ^ 32 - 2 ^ (32 - n))]

/-- One call on the lexer. -/
inductive Call where
  | next
  | unread
  deriving DecidableEq

/-- The lexer after a sequence of calls; `none` when a call of next panics. -/
def calls (d : Decls) : List Call → lexer → Option lexer
  | [], l => some l
  | Call.next :: cs, l =>
    match next d l with
    | none => none
    | some (_, l') => calls d cs l'
  | Call.unread :: cs, l => calls d cs (unread l)

/-- The payload each kind determines: text for String, Comment and the identifier and
keyword kinds, an integer for Number, an address for IpAddress, no value for
EndOfInput and Illegal. -/
def payloadOk (t : lexToken) : Bool :=
  match t.token, t.value with
  | token.STRING, Value.str _ => true
  | token.COMMENT, Value.str _ => true
  | token.NUMBER, Value.int _ => true
  | token.IP_ADDRESS, Value.ip _ => true
  | token.other _, Value.str _ => true
  | token.EOF, Value.nil => true
  | token.ILLEGAL, Value.nil => true
  | _, _ => false

/-- The ASCII letters. -/
def isAsciiLetter (b : Byte) : Bool :=
  decide ((65 ≤ b.val ∧ b.val ≤ 90) ∨ (97 ≤ b.val ∧ b.val ≤ 122))

/-- The ASCII whitespace bytes: tab, newline, vertical tab, form feed, carriage return
and space. -/
def isAsciiWhitespace (b : Byte) : Bool :=
  decide (b.val = 9 ∨ b.val = 10 ∨ b.val = 11 ∨ b.val = 12 ∨ b.val = 13 ∨ b.val = 32)

/-- The letters of the upper half of Latin-1: U+00AA, U+00B5, U+00BA, U+00C0-U+00D6,
U+00D8-U+00F6 and U+00F8-U+00FF. -/
def isLatin1Letter (b : Byte) : Bool :=
  decide (b.val = 170 ∨ b.val = 181 ∨ b.val = 186 ∨ (192 ≤ b.val ∧ b.val ≤ 214) ∨
    (216 ≤ b.val ∧ b.val ≤ 246) ∨ 248 ≤ b.val)

/-- The token with its line raised by `k`. -/
def shiftLine (k : Nat) (t : lexToken) : lexToken :=
  { t with line := t.line + k }

/-- The tokens the sub-scanners build, before a line is assigned: String, Comment and
looked-up tokens with text, Illegal without value, IpAddress with an address, Number
with a non-negative integer, and the token of an unhandled numeric shape, whose kind
is the zero value and whose value is nil. -/
def scannerToken (d : Decls) (t : lexToken) : Prop :=
  (∃ s, t.token = token.STRING ∧ t.value = Value.str s) ∨
  (∃ s, t.token = token.COMMENT ∧ t.value = Value.str s) ∨
  (∃ s, t.token = d.lookup s ∧ t.value = Value.str s) ∨
  (t.token = token.ILLEGAL ∧ t.value = Value.nil) ∨
  (∃ p, t.token = token.IP_ADDRESS ∧ t.value = Value.ip p) ∨
  (∃ n : Int, 0 ≤ n ∧ t.token = token.NUMBER ∧ t.value = Value.int n) ∨
  (t.token = d.zeroKind ∧ t.value = Value.nil)

/-- The tokens held by the lexer, in the overflow buffer and in `prev`, satisfy `P`. -/
def stored (P : lexToken → Prop) (l : lexer) : Prop :=
  (∀ t ∈ l.buffer, P t) ∧ (∀ t, l.prev = some t → P t)

/-- Bytes of an ASCII text. -/
def bytes (s : String) : List Byte :=
  s.toList.map (fun c => Fin.ofNat c.toNat)

end Dhcp

namespace Dhcp

/-! ### The sub-scanner loops -/

theorem consumeStringLoop_closed (s rest : List Byte) (hs : ∀ b ∈ s, b ≠ 34) (buf : List Byte) :
    consumeStringLoop buf (s ++ 34 :: rest) =
      ([{ token := token.STRING, value := Value.str (buf ++ s), line := 0 }], rest) := by
  induction s generalizing buf with
  | nil => simp [consumeStringLoop]
  | cons b s ih =>
    have hb : b ≠ 34 := hs b (List.mem_cons_self _ _)
    have hs' : ∀ x ∈ s, x ≠ 34 := fun x hx => hs x (List.mem_cons_of_mem _ hx)
    simp [consumeStringLoop, hb, ih hs']

theorem consumeStringLoop_open (s : List Byte) (hs : ∀ b ∈ s, b ≠ 34) (buf : List Byte) :
    consumeStringLoop buf s = ([], []) := by
  induction s generalizing buf with
  | nil => simp [consumeStringLoop]
  | cons b s ih =>
    have hb : b ≠ 34 := hs b (List.mem_cons_self _ _)
    have hs' : ∀ x ∈ s, x ≠ 34 := fun x hx => hs x (List.mem_cons_of_mem _ hx)
    simp [consumeStringLoop, hb, ih hs']

theorem consumeLineLoop_newline (s rest : List Byte) (hs : ∀ b ∈ s, b ≠ 10) (buf : List Byte) :
    consumeLineLoop buf (s ++ 10 :: rest) = (buf ++ s, 10 :: rest) := by
  induction s generalizing buf with
  | nil => simp [consumeLineLoop]
  | cons b s ih =>
    have hb : b ≠ 10 := hs b (List.mem_cons_self _ _)
    have hs' : ∀ x ∈ s, x ≠ 10 := fun x hx => hs x (List.mem_cons_of_mem _ hx)
    simp [consumeLineLoop, hb, ih hs']

/-- C9: a string literal without an inner double quote gives one String token holding the
bytes between the quotes verbatim, and exactly the input after the closing quote is
left; nothing goes to the overflow buffer. -/
theorem C9_string_literal_verbatim (d : Decls) (l : lexer) (s rest : List Byte)
    (hread : l.readPrev = false) (hbuf : l.buffer = []) (hr : l.r = 34 :: (s ++ 34 :: rest))
    (hs : ∀ b ∈ s, b ≠ 34) :
    next d l = some (some { token := token.STRING, value := Value.str s, line := l.line },
      { l with r := rest,
               prev := some { token := token.STRING, value := Value.str s, line := l.line } }) := by
  cases l with
  | mk line r buffer prev readPrev =>
    simp only at hread hbuf hr
    subst hread hbuf hr
    simp [next, scan, consumeString, consumeStringLoop_closed s rest hs]

set_option maxRecDepth 8000 in
theorem C9_string_literal_verbatim_witness :
    next ⟨fun _ => token.other 0, token.other 1⟩ (newLexer (34 :: (bytes "a\\" ++ 34 :: bytes "b")))
      = some (some { token := token.STRING, value := Value.str (bytes "a\\"), line := 1 },
          { newLexer (34 :: (bytes "a\\" ++ 34 :: bytes "b")) with
            r := bytes "b",
            prev := some { token := token.STRING, value := Value.str (bytes "a\\"), line := 1 } }) :=
  C9_string_literal_verbatim _ _ (bytes "a\\") (bytes "b") rfl rfl rfl (by decide)

/-- C10: a comment line gives one Comment token holding the bytes between `#` and the
newline, with the current line; the newline stays in the input, and the following call
of next behaves as a call on the rest of the input with the line counter incremented
once. -/
theorem C10_comment_line (d : Decls) (l : lexer) (s rest : List Byte)
    (hread : l.readPrev = false) (hbuf : l.buffer = []) (hr : l.r = 35 :: (s ++ 10 :: rest))
    (hs : ∀ b ∈ s, b ≠ 10) :
    next d l = some (some { token := token.COMMENT, value := Value.str s, line := l.line },
      { l with r := 10 :: rest,
               prev := some { token := token.COMMENT, value := Value.str s, line := l.line } }) ∧
    next d { l with r := 10 :: rest,
                    prev := some { token := token.COMMENT, value := Value.str s, line := l.line } } =
      next d { l with r := rest, line := l.line + 1,
                      prev := some { token := token.COMMENT, value := Value.str s, line := l.line } } := by
  cases l with
  | mk line r buffer prev readPrev =>
    simp only at hread hbuf hr
    subst hread hbuf hr
    constructor
    · have h35 : isNumber (35 : Byte) = false := by decide
      simp [next, scan, consumeLine, consumeLineLoop_newline s rest hs, h35]
    · have h10 : isNumber (10 : Byte) = false := by decide
      simp [next, scan, h10]

set_option maxRecDepth 8000 in
theorem C10_comment_line_witness :
    next ⟨fun _ => token.other 0, token.other 1⟩ (newLexer (35 :: (bytes " note" ++ 10 :: bytes "x ")))
      = some (some { token := token.COMMENT, value := Value.str (bytes " note"), line := 1 },
        { newLexer (35 :: (bytes " note" ++ 10 :: bytes "x ")) with
          r := 10 :: bytes "x ",
          prev := some { token := token.COMMENT, value := Value.str (bytes " note"), line := 1 } }) ∧
    next ⟨fun _ => token.other 0, token.other 1⟩
        { newLexer (35 :: (bytes " note" ++ 10 :: bytes "x ")) with
          r := 10 :: bytes "x ",
          prev := some { token := token.COMMENT, value := Value.str (bytes " note"), line := 1 } } =
      next ⟨fun _ => token.other 0, token.other 1⟩
        { newLexer (35 :: (bytes " note" ++ 10 :: bytes "x ")) with
          r := bytes "x ", line := 1 + 1,
          prev := some { token := token.COMMENT, value := Value.str (bytes " note"), line := 1 } } :=
  C10_comment_line _ _ (bytes " note") (bytes "x ") rfl rfl rfl (by decide)

/-- C4: when a double quote is opened and the input ends before a closing one, the call
of next that scans the string panics (the string scanner returns an empty slice, which
next indexes); no Illegal token is produced. -/
theorem C4_unterminated_string_panics (d : Decls) (l : lexer) (s : List Byte)
    (hread : l.readPrev = false) (hbuf : l.buffer = []) (hr : l.r = 34 :: s)
    (hs : ∀ b ∈ s, b ≠ 34) :
    next d l = none := by
  cases l with
  | mk line r buffer prev readPrev =>
    simp only at hread hbuf hr
    subst hread hbuf hr
    simp [next, scan, consumeString, consumeStringLoop_open s hs]

set_option maxRecDepth 8000 in
theorem C4_unterminated_string_panics_witness :
    next ⟨fun _ => token.other 0, token.other 1⟩ (newLexer (34 :: bytes "abc")) = none :=
  C4_unterminated_string_panics _ _ (bytes "abc") rfl rfl rfl (by decide)

/-- C2: next panics when the input ends inside a numeric, identifier or string literal
(inputs `42`, `abc` and an opening quote followed by `abc`), and returns the nil
pointer when unread is called before any token was produced. -/
theorem C2_next_panics_or_returns_nil (d : Decls) :
    next d (newLexer (bytes "42")) = none ∧
    next d (newLexer (bytes "abc")) = none ∧
    next d (newLexer (34 :: bytes "abc")) = none ∧
    next d (unread (newLexer (bytes "42 "))) =
      some (none, newLexer (bytes "42 ")) := by
  refine ⟨rfl, rfl, rfl, rfl⟩

/-- C1: after next has returned the end-of-input token, unread followed by next does not
return that token again: on the input `a ` it returns the identifier token once more,
and on the empty input it returns the nil pointer. -/
theorem C1_unread_after_end_of_input (d : Decls) :
    (∃ l1 l2 l3,
      next d (newLexer (bytes "a ")) =
        some (some { token := d.lookup (bytes "a"), value := Value.str (bytes "a"), line := 1 }, l1) ∧
      next d l1 = some (some { token := token.EOF, value := Value.nil, line := 0 }, l2) ∧
      next d (unread l2) =
        some (some { token := d.lookup (bytes "a"), value := Value.str (bytes "a"), line := 1 }, l3)) ∧
    (∃ l1 l2,
      next d (newLexer []) = some (some { token := token.EOF, value := Value.nil, line := 0 }, l1) ∧
      next d (unread l1) = some (none, l2)) := by
  exact ⟨⟨_, _, _, rfl, rfl, rfl⟩, ⟨_, _, rfl, rfl⟩⟩

/-! ### The numeric scanner -/

theorem isNumber_iff (b : Byte) : isNumber b = true ↔ 48 ≤ b.val ∧ b.val ≤ 57 := by
  simp [isNumber]

theorem isNumber_ne_dot_slash (b : Byte) (h : isNumber b = true) : b ≠ 46 ∧ b ≠ 47 := by
  constructor <;> intro hb <;> subst hb <;> revert h <;> decide

theorem consumeNumericLoop_literal (lit : List Byte) (t : Byte) (rest : List Byte)
    (hlit : ∀ b ∈ lit, isNumber b = true ∨ b = 46 ∨ b = 47)
    (ht : isNumber t = false ∧ t ≠ 46 ∧ t ≠ 47)
    (buf : List Byte) (dotCount : Nat) (hasSlash : Bool) :
    consumeNumericLoop buf dotCount hasSlash (lit ++ t :: rest) =
      some (buf ++ lit, dotCount + lit.count 46, hasSlash || decide (47 ∈ lit), t :: rest) := by
  induction lit generalizing buf dotCount hasSlash with
  | nil => simp [consumeNumericLoop, ht.1, ht.2.1, ht.2.2]
  | cons b lit ih =>
    have hlit' : ∀ x ∈ lit, isNumber x = true ∨ x = 46 ∨ x = 47 :=
      fun x hx => hlit x (List.mem_cons_of_mem _ hx)
    rcases hlit b (List.mem_cons_self _ _) with hb | hb | hb
    · have hne := isNumber_ne_dot_slash b hb
      have h1 : (b == 46) = false := by simpa using hne.1
      have h2 : ¬ (47 = b) := fun h => hne.2 h.symm
      simp [consumeNumericLoop, hb, ih hlit', List.count_cons, h1, h2]
    · subst hb
      have h46 : isNumber (46 : Byte) = false := by decide
      have h2 : ¬ ((47 : Byte) = 46) := by decide
      simp [consumeNumericLoop, h46, ih hlit', List.count_cons, h2]
      omega
    · subst hb
      have h47 : isNumber (47 : Byte) = false := by decide
      have h1 : ¬ ((47 : Byte) = 46) := by decide
      have h2 : ((47 : Byte) == 46) = false := by decide
      simp [consumeNumericLoop, h47, ih hlit', List.count_cons, h1, h2]

/-- C8: a numeric literal with one, two or at least four dots gives a token whose kind was
never assigned (the zero value of the kind type) and whose value is nil; the code has
no branch that assigns Illegal to this shape. -/
theorem C8_unhandled_shape_kind_unassigned (d : Decls) (l : lexer) (c : Byte)
    (lit : List Byte) (t : Byte) (rest : List Byte)
    (hread : l.readPrev = false) (hbuf : l.buffer = []) (hr : l.r = c :: lit ++ t :: rest)
    (hc : isNumber c = true)
    (hlit : ∀ b ∈ lit, isNumber b = true ∨ b = 46 ∨ b = 47)
    (ht : isNumber t = false ∧ t ≠ 46 ∧ t ≠ 47)
    (hdots : lit.count 46 ≠ 0 ∧ lit.count 46 ≠ 3) :
    next d l = some (some { token := d.zeroKind, value := Value.nil, line := l.line },
      { l with r := t :: rest,
               prev := some { token := d.zeroKind, value := Value.nil, line := l.line } }) := by
  cases l with
  | mk line r buffer prev readPrev =>
    simp only at hread hbuf hr
    subst hread hbuf hr
    have hne := isNumber_ne_dot_slash c hc
    have hc34 : c ≠ 34 := by
      intro h; subst h; revert hc; decide
    have hlit' : ∀ b ∈ c :: lit, isNumber b = true ∨ b = 46 ∨ b = 47 := by
      intro b hb
      rcases List.mem_cons.1 hb with h | h
      · subst h; exact Or.inl hc
      · exact hlit b h
    have hloop := consumeNumericLoop_literal (c :: lit) t rest hlit' ht [] 0 false
    have hcount : (c :: lit).count 46 = lit.count 46 := by
      have h1 : (c == 46) = false := by simpa using hne.1
      simp [List.count_cons, h1]
    rw [hcount] at hloop
    simp only [List.cons_append, List.nil_append, Nat.zero_add] at hloop
    simp [next, scan, hc34, hc, consumeNumeric, hloop, classifyNumeric, hdots.1, hdots.2]

set_option maxRecDepth 8000 in
theorem C8_unhandled_shape_kind_unassigned_witness :
    next ⟨fun _ => token.other 0, token.other 1⟩ (newLexer (bytes "42.5 ")) =
      some (some { token := token.other 1, value := Value.nil, line := 1 },
        { newLexer (bytes "42.5 ") with
          r := bytes " ",
          prev := some { token := token.other 1, value := Value.nil, line := 1 } }) :=
  C8_unhandled_shape_kind_unassigned _ _ 52 (bytes "2.5") 32 [] rfl rfl rfl (by decide)
    (by decide) (by decide) (by decide)

/-! ### Progress of the classification loop and termination of `all` -/

theorem consumeStringLoop_length (r buf : List Byte) :
    (consumeStringLoop buf r).2.length ≤ r.length ∧ (consumeStringLoop buf r).1.length ≤ 1 := by
  induction r generalizing buf with
  | nil => simp [consumeStringLoop]
  | cons b r ih =>
    unfold consumeStringLoop
    split
    · simp
    · have := ih (buf ++ [b])
      simp only [List.length_cons]
      omega

theorem consumeLineLoop_length (r buf : List Byte) :
    (consumeLineLoop buf r).2.length ≤ r.length := by
  induction r generalizing buf with
  | nil => simp [consumeLineLoop]
  | cons b r ih =>
    unfold consumeLineLoop
    split
    · simp
    · have := ih (buf ++ [b])
      simp only [List.length_cons]
      omega

theorem consumeIdentLoop_length (r buf : List Byte) :
    (consumeIdentLoop buf r).2.length ≤ r.length := by
  induction r generalizing buf with
  | nil => simp [consumeIdentLoop]
  | cons b r ih =>
    unfold consumeIdentLoop
    split
    · simp
    · have := ih (buf ++ [b])
      simp only [List.length_cons]
      omega

theorem isLetter_not_isWhitespace (c : Byte) (h : isLetter c = true) : isWhitespace c = false := by
  simp only [isLetter, decide_eq_true_eq] at h
  simp only [isWhitespace, decide_eq_false_iff_not]
  omega

theorem consumeIdent_length (d : Decls) (c : Byte) (r : List Byte) (h : isLetter c = true) :
    (consumeIdent d (c :: r)).2.length < (c :: r).length ∧ (consumeIdent d (c :: r)).1.length ≤ 1 := by
  have hw := isLetter_not_isWhitespace c h
  have hlen := consumeIdentLoop_length r ([] ++ [c])
  unfold consumeIdent
  simp only [consumeIdentLoop, hw]
  generalize consumeIdentLoop ([] ++ [c]) r = x at hlen
  rcases x with ⟨_ | buf, r'⟩ <;> simp at hlen ⊢ <;> omega

theorem consumeNumericLoop_length (r buf : List Byte) (dotCount : Nat) (hasSlash : Bool)
    (b' : List Byte) (dc' : Nat) (hs' : Bool) (r' : List Byte)
    (h : consumeNumericLoop buf dotCount hasSlash r = some (b', dc', hs', r')) :
    r'.length ≤ r.length := by
  induction r generalizing buf dotCount hasSlash with
  | nil => simp [consumeNumericLoop] at h
  | cons b r ih =>
    unfold consumeNumericLoop at h
    split at h
    · have := ih _ _ _ h
      simp only [List.length_cons]; omega
    · split at h
      · have := ih _ _ _ h
        simp only [List.length_cons]; omega
      · split at h
        · have := ih _ _ _ h
          simp only [List.length_cons]; omega
        · simp only [Option.some.injEq, Prod.mk.injEq] at h
          rw [← h.2.2.2]

theorem classifyNumeric_length (d : Decls) (buf : List Byte) (dotCount : Nat) (hasSlash : Bool) :
    (classifyNumeric d buf dotCount hasSlash).length ≤ 2 := by
  unfold classifyNumeric
  split
  · split <;> simp
  · split
    · split <;> simp
    · split
      · split <;> simp
      · simp

theorem consumeNumeric_length (d : Decls) (c : Byte) (r : List Byte) (h : isNumber c = true) :
    (consumeNumeric d (c :: r)).2.length < (c :: r).length ∧
      (consumeNumeric d (c :: r)).1.length ≤ 2 := by
  unfold consumeNumeric
  have hstep : consumeNumericLoop [] 0 false (c :: r) = consumeNumericLoop ([] ++ [c]) 0 false r := by
    simp [consumeNumericLoop, h]
  rw [hstep]
  cases hx : consumeNumericLoop ([] ++ [c]) 0 false r with
  | none => simp
  | some x =>
    obtain ⟨b', dc', hs', r'⟩ := x
    have := consumeNumericLoop_length r _ _ _ _ _ _ _ hx
    have := classifyNumeric_length d b' dc' hs'
    simp only [List.length_cons]
    omega

/-- A pass of the classification loop that yields tokens has consumed at least one byte
and yields at most two tokens. -/
theorem scan_toks_progress (d : Decls) (r : List Byte) (line : Nat) (tok : List lexToken)
    (line' : Nat) (r' : List Byte) (h : scan d line r = Scan.toks tok line' r') :
    r'.length < r.length ∧ tok.length ≤ 2 := by
  induction r generalizing line with
  | nil => simp [scan] at h
  | cons c r ih =>
    unfold scan at h
    split at h
    · simp only [Scan.toks.injEq] at h
      have := consumeStringLoop_length r []
      rw [← h.1, ← h.2.2]
      simp only [consumeString, List.length_cons]
      omega
    · split at h
      · rename_i hnum
        simp only [Scan.toks.injEq] at h
        have := consumeNumeric_length d c r hnum
        rw [← h.1, ← h.2.2]
        exact this
      · split at h
        · have := ih _ h
          simp only [List.length_cons]; omega
        · split at h
          · simp only [Scan.toks.injEq] at h
            have := consumeLineLoop_length r []
            rw [← h.1, ← h.2.2]
            constructor
            · simp only [consumeLine, List.length_cons]
              omega
            · simp
          · split at h
            · rename_i hlet
              simp only [Scan.toks.injEq] at h
              have := consumeIdent_length d c r hlet
              rw [← h.1, ← h.2.2]
              constructor
              · exact this.1
              · omega
            · have := ih _ h
              simp only [List.length_cons]; omega

/-- A call of next with nothing pending and an empty overflow buffer either consumes at
least one byte of input or returns the end-of-input token. -/
theorem next_progress (d : Decls) (l : lexer) (t : Option lexToken) (l' : lexer)
    (hread : l.readPrev = false) (hbuf : l.buffer = []) (h : next d l = some (t, l')) :
    l'.r.length < l.r.length ∨
      t = some { token := token.EOF, value := Value.nil, line := 0 } := by
  cases l with
  | mk line r buffer prev readPrev =>
    simp only at hread hbuf
    subst hread hbuf
    simp only [next, Bool.false_eq_true, if_false] at h
    cases hsc : scan d line r with
    | eof line' =>
      rw [hsc] at h
      simp only [Option.some.injEq, Prod.mk.injEq] at h
      exact Or.inr h.1.symm
    | toks tok line' r' =>
      rw [hsc] at h
      have hp := scan_toks_progress d r line tok line' r' hsc
      cases tok with
      | nil => simp at h
      | cons t0 more =>
        simp only [List.map_cons, Option.some.injEq, Prod.mk.injEq] at h
        left
        rw [← h.2]
        exact hp.1

/-- Every call of next that returns a token other than end of input decreases the work
left. -/
theorem next_pending_lt (d : Decls) (l : lexer) (tok : lexToken) (l' : lexer)
    (h : next d l = some (some tok, l')) (hne : tok.token ≠ token.EOF) :
    pending l' < pending l := by
  cases l with
  | mk line r buffer prev readPrev =>
    cases readPrev with
    | true =>
      simp only [next, if_true, Option.some.injEq, Prod.mk.injEq] at h
      rw [← h.2]
      simp [pending]
    | false =>
      cases buffer with
      | cons b rest =>
        simp only [next, Bool.false_eq_true, if_false, Option.some.injEq, Prod.mk.injEq] at h
        rw [← h.2]
        simp [pending]
      | nil =>
        simp only [next, Bool.false_eq_true, if_false] at h
        cases hsc : scan d line r with
        | eof line' =>
          rw [hsc] at h
          simp only [Option.some.injEq, Prod.mk.injEq] at h
          exact absurd (by rw [← h.1]) hne
        | toks tk line' r' =>
          rw [hsc] at h
          have hp := scan_toks_progress d r line tk line' r' hsc
          cases tk with
          | nil => simp at h
          | cons t0 more =>
            simp only [List.map_cons, Option.some.injEq, Prod.mk.injEq] at h
            rw [← h.2]
            have hlen : more.length ≤ 1 := by
              have := hp.2
              simp only [List.length_cons] at this
              omega
            simp only [pending, List.length_map, Bool.false_eq_true, if_false]
            split <;> simp <;> omega

theorem allLoop_fuel (d : Decls) (fuel : Nat) (l : lexer) (acc : List lexToken)
    (h : pending l < fuel) : allLoop d fuel l acc ≠ Run.outOfFuel := by
  induction fuel generalizing l acc with
  | zero => omega
  | succ n ih =>
    unfold allLoop
    cases hn : next d l with
    | none => simp
    | some x =>
      obtain ⟨t, l'⟩ := x
      cases t with
      | none => simp
      | some tok =>
        by_cases he : tok.token = token.EOF
        · simp [he]
        · simp only [he, if_false]
          have := next_pending_lt d l tok l' hn he
          exact ih l' _ (by omega)

theorem allLoop_fuel_irrelevant (d : Decls) (f1 f2 : Nat) (l : lexer) (acc : List lexToken)
    (h1 : pending l < f1) (h2 : pending l < f2) : allLoop d f1 l acc = allLoop d f2 l acc := by
  induction f1 generalizing f2 l acc with
  | zero => omega
  | succ n ih =>
    cases f2 with
    | zero => omega
    | succ m =>
      unfold allLoop
      cases hn : next d l with
      | none => rfl
      | some x =>
        obtain ⟨t, l'⟩ := x
        cases t with
        | none => rfl
        | some tok =>
          by_cases he : tok.token = token.EOF
          · simp [he]
          · simp only [he, if_false]
            have := next_pending_lt d l tok l' hn he
            exact ih m l' _ (by omega) (by omega)

theorem allLoop_no_EOF (d : Decls) (fuel : Nat) (l : lexer) (acc toks : List lexToken)
    (hacc : ∀ t ∈ acc, t.token ≠ token.EOF) (h : allLoop d fuel l acc = Run.ret toks) :
    ∀ t ∈ toks, t.token ≠ token.EOF := by
  induction fuel generalizing l acc with
  | zero => simp [allLoop] at h
  | succ n ih =>
    unfold allLoop at h
    cases hn : next d l with
    | none => rw [hn] at h; simp at h
    | some x =>
      obtain ⟨t, l'⟩ := x
      rw [hn] at h
      cases t with
      | none => simp at h
      | some tok =>
        by_cases he : tok.token = token.EOF
        · simp only [he, if_true, Run.ret.injEq] at h
          rw [← h]; exact hacc
        · simp only [he, if_false] at h
          refine ih l' (acc ++ [tok]) ?_ h
          intro t ht
          rcases List.mem_append.1 ht with h' | h'
          · exact hacc t h'
          · rw [List.mem_singleton.1 h']; exact he

/-- C3: on a fresh lexer over any finite input the loop of all never needs more than
`2 * input.length + 2` iterations (it ends by returning or by a panic of next, and more
fuel changes nothing), a returned token sequence holds no end-of-input token, and each
call of next with nothing pending and an empty overflow buffer either consumes at least
one byte or returns the end-of-input token. -/
theorem C3_all_terminates_without_EOF (d : Decls) (input : List Byte) :
    all d (newLexer input) ≠ Run.outOfFuel ∧
    (∀ fuel, 2 * input.length + 2 ≤ fuel →
      allLoop d fuel (newLexer input) [] = all d (newLexer input)) ∧
    (∀ toks, all d (newLexer input) = Run.ret toks → ∀ t ∈ toks, t.token ≠ token.EOF) ∧
    (∀ l t l', l.readPrev = false → l.buffer = [] → next d l = some (t, l') →
      l'.r.length < l.r.length ∨
        t = some { token := token.EOF, value := Value.nil, line := 0 }) := by
  have hp : pending (newLexer input) = 2 * input.length := by simp [pending, newLexer]
  refine ⟨?_, ?_, ?_, ?_⟩
  · exact allLoop_fuel d _ _ _ (by rw [hp]; simp [newLexer])
  · intro fuel hf
    exact allLoop_fuel_irrelevant d _ _ _ _ (by omega) (by rw [hp]; simp [newLexer])
  · intro toks h
    exact allLoop_no_EOF d _ _ [] toks (by simp) h
  · intro l t l' hread hbuf h
    exact next_progress d l t l' hread hbuf h

set_option maxRecDepth 8000 in
theorem C3_all_terminates_without_EOF_witness :
    all ⟨fun _ => token.other 0, token.other 1⟩ (newLexer (bytes "7 ")) =
        Run.ret [{ token := token.NUMBER, value := Value.int 7, line := 1 }] ∧
      ∀ t ∈ [({ token := token.NUMBER, value := Value.int 7, line := 1 } : lexToken)],
        t.token ≠ token.EOF :=
  ⟨by decide,
   (C3_all_terminates_without_EOF ⟨fun _ => token.other 0, token.other 1⟩ (bytes "7 ")).2.2.1
     [{ token := token.NUMBER, value := Value.int 7, line := 1 }] (by decide)⟩

/-! ### `strconv.Atoi` on a run of digits -/

theorem decimalFrom_ge (ds : List Byte) (n : Nat) : n ≤ decimalFrom n ds := by
  induction ds generalizing n with
  | nil => simp [decimalFrom]
  | cons c ds ih =>
    have := ih (n * 10 + (c.val - 48))
    simp only [decimalFrom, List.foldl_cons] at this ⊢
    omega

theorem decimalFrom_lt (ds : List Byte) (hd : ∀ b ∈ ds, isNumber b = true) (n : Nat) :
    decimalFrom n ds < (n + 1) * 10 ^ ds.length := by
  induction ds generalizing n with
  | nil => simp [decimalFrom]
  | cons c ds ih =>
    have hc := (isNumber_iff c).1 (hd c (List.mem_cons_self _ _))
    have := ih (fun x hx => hd x (List.mem_cons_of_mem _ hx)) (n * 10 + (c.val - 48))
    simp only [decimalFrom, List.foldl_cons, List.length_cons] at this ⊢
    calc List.foldl (fun acc c => acc * 10 + (c.val - 48)) (n * 10 + (c.val - 48)) ds
        < (n * 10 + (c.val - 48) + 1) * 10 ^ ds.length := this
      _ ≤ ((n + 1) * 10) * 10 ^ ds.length := Nat.mul_le_mul_right _ (by omega)
      _ = (n + 1) * 10 ^ (ds.length + 1) := by rw [Nat.pow_succ]; ring

theorem byte_sub_48 (c : Byte) (h : 48 ≤ c.val) : (c - 48 : Byte).val = c.val - 48 := by
  rw [Fin.sub_def]
  have := c.isLt
  show (256 - 48 + c.val) % 256 = c.val - 48
  omega

theorem AtoiFastLoop_digits (ds : List Byte) (hd : ∀ b ∈ ds, isNumber b = true) (n : Nat) :
    AtoiFastLoop (n : Int) ds = some ((decimalFrom n ds : Nat) : Int) := by
  induction ds generalizing n with
  | nil => simp [AtoiFastLoop, decimalFrom]
  | cons c ds ih =>
    have hc := (isNumber_iff c).1 (hd c (List.mem_cons_self _ _))
    have hsub := byte_sub_48 c hc.1
    have := ih (fun x hx => hd x (List.mem_cons_of_mem _ hx)) (n * 10 + (c.val - 48))
    unfold AtoiFastLoop
    rw [hsub, if_neg (by omega)]
    simp only [decimalFrom, List.foldl_cons] at this ⊢
    rw [← this]
    push_cast
    rfl

theorem ParseUintLoop_digits (ds : List Byte) (hd : ∀ b ∈ ds, isNumber b = true) (n : Nat)
    (hn : n < 2 ^ 64) :
    ParseUintLoop n ds =
      if decimalFrom n ds < 2 ^ 64 then (decimalFrom n ds, none)
      else (2 ^ 64 - 1, some NumError.ErrRange) := by
  induction ds generalizing n with
  | nil =>
    simp only [ParseUintLoop, decimalFrom, List.foldl_nil]
    rw [if_pos hn]
  | cons c ds ih =>
    have hc := (isNumber_iff c).1 (hd c (List.mem_cons_self _ _))
    have hd' : ∀ x ∈ ds, isNumber x = true := fun x hx => hd x (List.mem_cons_of_mem _ hx)
    have hge := decimalFrom_ge ds (n * 10 + (c.val - 48))
    have hstep : decimalFrom n (c :: ds) = decimalFrom (n * 10 + (c.val - 48)) ds := by
      simp [decimalFrom]
    rw [hstep]
    unfold ParseUintLoop
    rw [if_pos hc]
    norm_num only at hn hge ⊢
    by_cases hcut : 1844674407370955162 ≤ n
    · rw [if_pos hcut, if_neg (by omega)]
    · rw [if_neg hcut]
      have h10 : n * 10 % 18446744073709551616 = n * 10 := Nat.mod_eq_of_lt (by omega)
      simp only [h10]
      by_cases hov : n * 10 + (c.val - 48) < 18446744073709551616
      · rw [Nat.mod_eq_of_lt hov, if_neg (by omega)]
        have := ih hd' (n * 10 + (c.val - 48)) (by norm_num only; exact hov)
        norm_num only at this
        exact this
      · have hmod : (n * 10 + (c.val - 48)) % 18446744073709551616 =
            n * 10 + (c.val - 48) - 18446744073709551616 := by omega
        rw [hmod, if_pos (by omega), if_neg (by omega)]

theorem digit_head (ds : List Byte) (hne : ds ≠ []) (hd : ∀ b ∈ ds, isNumber b = true) :
    ds.head? ≠ some 45 ∧ ds.head? ≠ some 43 := by
  cases ds with
  | nil => exact absurd rfl hne
  | cons c ds =>
    have hc := hd c (List.mem_cons_self _ _)
    simp only [List.head?_cons, ne_eq, Option.some.injEq]
    constructor <;> intro h <;> subst h <;> revert hc <;> decide

/-- `strconv.Atoi` on a non-empty run of digits: the decimal value when it is below
2^63, an error otherwise. -/
theorem Atoi_digits (ds : List Byte) (hne : ds ≠ []) (hd : ∀ b ∈ ds, isNumber b = true) :
    Atoi ds = if decimalValue ds < 2 ^ 63 then some ((decimalValue ds : Nat) : Int) else none := by
  have hhead := digit_head ds hne hd
  have hlen : 0 < ds.length := List.length_pos.2 hne
  unfold Atoi
  by_cases hshort : 0 < ds.length ∧ ds.length < 19
  · rw [if_pos hshort]
    have hlt := decimalFrom_lt ds hd 0
    have hpow : 10 ^ ds.length ≤ 10 ^ 18 := Nat.pow_le_pow_right (by norm_num) (by omega)
    have hval : decimalFrom 0 ds < 2 ^ 63 := by
      norm_num only at hlt hpow ⊢
      omega
    have hfast := AtoiFastLoop_digits ds hd 0
    simp only [Nat.cast_zero] at hfast
    simp only [hhead.1, hhead.2, or_self, if_false, hfast, decimalValue]
    rw [if_neg (by omega), if_pos hval]
  · rw [if_neg hshort]
    have hloop := ParseUintLoop_digits ds hd 0 (by norm_num)
    unfold ParseInt ParseUint
    simp only [hne, if_false, hhead.1, hhead.2, or_self, decide_False, hloop, decimalValue]
    generalize decimalFrom 0 ds = v
    by_cases h64 : v < 18446744073709551616
    · by_cases h63 : v < 9223372036854775808
      · have h : ¬ (9223372036854775808 ≤ v) := by omega
        simp [h64, h63, h]
      · have h : 9223372036854775808 ≤ v := by omega
        simp [h64, h63, h]
    · have h63 : ¬ v < 9223372036854775808 := by omega
      simp [h64, h63]

/-- A call of next on a numeric literal followed by a terminating byte: the tokens are
those of the classification of the literal, and the terminating byte stays in the
input. -/
theorem next_numeric_literal (d : Decls) (l : lexer) (c : Byte) (lit : List Byte) (t : Byte)
    (rest : List Byte) (hread : l.readPrev = false) (hbuf : l.buffer = [])
    (hr : l.r = c :: lit ++ t :: rest) (hc : isNumber c = true)
    (hlit : ∀ b ∈ lit, isNumber b = true ∨ b = 46 ∨ b = 47)
    (ht : isNumber t = false ∧ t ≠ 46 ∧ t ≠ 47) :
    next d l =
      match (classifyNumeric d (c :: lit) (lit.count 46) (decide (47 ∈ lit))).map
          (fun x => { x with line := l.line }) with
      | [] => none
      | t0 :: more =>
        some (some t0, { l with r := t :: rest,
                                buffer := if more.length > 0 then more else [],
                                prev := some t0 }) := by
  cases l with
  | mk line r buffer prev readPrev =>
    simp only at hread hbuf hr
    subst hread hbuf hr
    have hne := isNumber_ne_dot_slash c hc
    have hc34 : c ≠ 34 := by
      intro h; subst h; revert hc; decide
    have hlit' : ∀ b ∈ c :: lit, isNumber b = true ∨ b = 46 ∨ b = 47 := by
      intro b hb
      rcases List.mem_cons.1 hb with h | h
      · subst h; exact Or.inl hc
      · exact hlit b h
    have hloop := consumeNumericLoop_literal (c :: lit) t rest hlit' ht [] 0 false
    have hcount : (c :: lit).count 46 = lit.count 46 := by
      have h1 : (c == 46) = false := by simpa using hne.1
      simp [List.count_cons, h1]
    have hmem : decide (47 ∈ c :: lit) = decide (47 ∈ lit) := by
      have h2 : ¬ (47 = c) := fun h => hne.2 h.symm
      simp [h2]
    rw [hcount, hmem] at hloop
    simp only [List.cons_append, List.nil_append, Nat.zero_add, Bool.false_or] at hloop
    have hloop' : consumeNumericLoop [] 0 false (c :: lit.append (t :: rest)) =
        some (c :: lit, List.count 46 lit, decide (47 ∈ lit), t :: rest) := hloop
    simp only [next, scan, hc34, hc, consumeNumeric, hloop, hloop', List.cons_append, if_true,
      if_false, Bool.false_eq_true]

theorem digits_count_dot (ds : List Byte) (hd : ∀ b ∈ ds, isNumber b = true) :
    ds.count 46 = 0 ∧ 47 ∉ ds := by
  constructor
  · rw [List.count_eq_zero]
    intro h
    exact (isNumber_ne_dot_slash _ (hd _ h)).1 rfl
  · intro h
    exact (isNumber_ne_dot_slash _ (hd _ h)).2 rfl

/-- C7: a non-empty run of ASCII digits followed by a byte that is not a digit, `.` or
`/` gives one Number token holding its decimal value when that value is below 2^63 and
one Illegal token otherwise; in both cases the terminating byte stays in the input and
the overflow buffer stays empty. -/
theorem C7_digit_run (d : Decls) (l : lexer) (ds : List Byte) (t : Byte) (rest : List Byte)
    (hread : l.readPrev = false) (hbuf : l.buffer = []) (hr : l.r = ds ++ t :: rest)
    (hne : ds ≠ []) (hd : ∀ b ∈ ds, isNumber b = true)
    (ht : isNumber t = false ∧ t ≠ 46 ∧ t ≠ 47) :
    (decimalValue ds < 2 ^ 63 →
      next d l = some (some { token := token.NUMBER,
                              value := Value.int ((decimalValue ds : Nat) : Int),
                              line := l.line },
        { l with r := t :: rest,
                 prev := some { token := token.NUMBER,
                                value := Value.int ((decimalValue ds : Nat) : Int),
                                line := l.line } })) ∧
    (2 ^ 63 ≤ decimalValue ds →
      next d l = some (some { token := token.ILLEGAL, value := Value.nil, line := l.line },
        { l with r := t :: rest,
                 prev := some { token := token.ILLEGAL, value := Value.nil, line := l.line } })) := by
  cases ds with
  | nil => exact absurd rfl hne
  | cons c ds' =>
    have hc : isNumber c = true := hd c (List.mem_cons_self _ _)
    have hd' : ∀ b ∈ ds', isNumber b = true := fun x hx => hd x (List.mem_cons_of_mem _ hx)
    have hlit : ∀ b ∈ ds', isNumber b = true ∨ b = 46 ∨ b = 47 := fun x hx => Or.inl (hd' x hx)
    have hnext := next_numeric_literal d l c ds' t rest hread hbuf hr hc hlit ht
    have hcd := digits_count_dot ds' hd'
    obtain ⟨line, r, buffer, prev, readPrev⟩ := l
    simp only at hread hbuf hr
    subst hread hbuf hr
    have hatoi := Atoi_digits (c :: ds') hne hd
    rw [hcd.1] at hnext
    simp only [hcd.2, decide_False] at hnext
    constructor
    · intro hv
      rw [if_pos hv] at hatoi
      rw [hnext]
      simp [classifyNumeric, hatoi]
    · intro hv
      rw [if_neg (by omega)] at hatoi
      rw [hnext]
      simp [classifyNumeric, hatoi]

set_option maxRecDepth 8000 in
theorem C7_digit_run_witness :
    next ⟨fun _ => token.other 0, token.other 1⟩ (newLexer [48, 48, 55, 32]) =
      some (some { token := token.NUMBER, value := Value.int 7, line := 1 },
        { newLexer [48, 48, 55, 32] with
          r := [32],
          prev := some { token := token.NUMBER, value := Value.int 7, line := 1 } }) :=
  (C7_digit_run ⟨fun _ => token.other 0, token.other 1⟩ (newLexer [48, 48, 55, 32])
    [48, 48, 55] 32 [] rfl rfl rfl (by decide) (by decide) (by decide)).1 (by decide)

/-! ### `net.ParseIP` and `net.ParseCIDR` on dotted quads -/

theorem digitByte_val (k : Nat) : (digitByte k).val = 48 + k % 10 := by
  show (48 + k % 10) % 256 = 48 + k % 10
  omega

theorem isNumber_digitByte (k : Nat) : isNumber (digitByte k) = true := by
  rw [isNumber_iff, digitByte_val]
  omega

theorem digitByte_of_isNumber (x : Byte) (h : isNumber x = true) : digitByte (x.val - 48) = x := by
  rw [isNumber_iff] at h
  apply Fin.ext
  rw [digitByte_val]
  omega

theorem byte_ofNat_val (a : Byte) : (Fin.ofNat a.val : Byte) = a := by
  apply Fin.ext
  show a.val % 256 = a.val
  exact Nat.mod_eq_of_lt a.isLt

theorem octetText_digits (n : Nat) : ∀ b ∈ octetText n, isNumber b = true := by
  intro b hb
  unfold octetText at hb
  split at hb
  · simp only [List.mem_singleton] at hb
    subst hb; exact isNumber_digitByte _
  · split at hb <;> simp only [List.mem_cons, List.mem_singleton, List.not_mem_nil, or_false] at hb
    · rcases hb with h | h <;> subst h <;> exact isNumber_digitByte _
    · rcases hb with h | h | h <;> subst h <;> exact isNumber_digitByte _

theorem octetText_cons (n : Nat) : ∃ c tl, octetText n = c :: tl ∧ isNumber c = true := by
  unfold octetText
  split
  · exact ⟨_, _, rfl, isNumber_digitByte _⟩
  · split
    · exact ⟨_, _, rfl, isNumber_digitByte _⟩
    · exact ⟨_, _, rfl, isNumber_digitByte _⟩

theorem dtoiLoop_stop (n i : Nat) (hi : i ≠ 0) (rest : List Byte)
    (hrest : ∀ x ∈ rest.head?, isNumber x = false) : dtoiLoop n i rest = some (n, i) := by
  cases rest with
  | nil => simp [dtoiLoop, hi]
  | cons x xs =>
    have hx : isNumber x = false := hrest x (by simp)
    have hx' : ¬ (48 ≤ x.val ∧ x.val ≤ 57) := by
      intro h
      rw [(isNumber_iff x).2 h] at hx
      exact Bool.noConfusion hx
    simp [dtoiLoop, hx', hi]

theorem dtoiLoop_digit (n i k : Nat) (s : List Byte) (hbig : n * 10 + k % 10 < 0xFFFFFF) :
    dtoiLoop n i (digitByte k :: s) = dtoiLoop (n * 10 + k % 10) (i + 1) s := by
  have hv := digitByte_val k
  have hsub : (digitByte k).val - 48 = k % 10 := by omega
  conv_lhs => rw [dtoiLoop]
  rw [if_pos (by omega), hsub, if_neg (by omega)]

/-- `net.dtoi` reads back the decimal text of a number below 1000. -/
theorem dtoi_octetText (n : Nat) (hn : n < 1000) (rest : List Byte)
    (hrest : ∀ x ∈ rest.head?, isNumber x = false) :
    dtoi (octetText n ++ rest) = some (n, (octetText n).length) := by
  unfold dtoi octetText
  split
  · rw [List.singleton_append, dtoiLoop_digit _ _ _ _ (by omega),
      dtoiLoop_stop _ _ (by omega) rest hrest]
    simp only [List.length_singleton, Option.some.injEq, Prod.mk.injEq]
    exact ⟨by omega, trivial⟩
  · split
    · simp only [List.cons_append, List.nil_append]
      rw [dtoiLoop_digit _ _ _ _ (by omega), dtoiLoop_digit _ _ _ _ (by omega),
        dtoiLoop_stop _ _ (by omega) rest hrest]
      simp only [List.length_cons, List.length_nil, Option.some.injEq, Prod.mk.injEq]
      exact ⟨by omega, trivial⟩
    · simp only [List.cons_append, List.nil_append]
      rw [dtoiLoop_digit _ _ _ _ (by omega), dtoiLoop_digit _ _ _ _ (by omega),
        dtoiLoop_digit _ _ _ _ (by omega), dtoiLoop_stop _ _ (by omega) rest hrest]
      simp only [List.length_cons, List.length_nil, Option.some.injEq, Prod.mk.injEq]
      exact ⟨by omega, trivial⟩

theorem octetText_no_leading_zero (n : Nat) (hn : n < 1000) (rest : List Byte) :
    ¬ ((octetText n).length > 1 ∧ (octetText n ++ rest).head? = some 48) := by
  unfold octetText
  split
  · simp
  · split
    · simp only [List.cons_append, List.head?_cons, Option.some.injEq]
      intro h
      have := congrArg Fin.val h.2
      rw [digitByte_val] at this
      have h48 : ((48 : Byte).val) = 48 := rfl
      rw [h48] at this
      omega
    · simp only [List.cons_append, List.head?_cons, Option.some.injEq]
      intro h
      have := congrArg Fin.val h.2
      rw [digitByte_val] at this
      have h48 : ((48 : Byte).val) = 48 := rfl
      rw [h48] at this
      omega

theorem octetText_ne_nil (n : Nat) : octetText n ≠ [] := by
  obtain ⟨c, tl, h, _⟩ := octetText_cons n
  rw [h]; exact List.cons_ne_nil _ _

/-- One round of the loop of `net.parseIPv4` on the text of an octet: the octet is
stored and the loop goes on after it. -/
theorem parseIPv4Loop_octet (k i : Nat) (a : Byte) (rest p : List Byte)
    (hrest : ∀ x ∈ rest.head?, isNumber x = false) :
    parseIPv4Loop (k + 1) i
        (if i > 0 then 46 :: (octetText a.val ++ rest) else octetText a.val ++ rest) p =
      parseIPv4Loop k (i + 1) rest (p ++ [a]) := by
  have ha : a.val < 1000 := by have := a.isLt; omega
  have ha' : ¬ a.val > 255 := by have := a.isLt; omega
  have hd := dtoi_octetText a.val ha rest hrest
  have hz := octetText_no_leading_zero a.val ha rest
  have hne : (octetText a.val ++ rest).length ≠ 0 := by
    have := octetText_ne_nil a.val
    cases h : octetText a.val with
    | nil => exact absurd h this
    | cons c tl => simp
  conv_lhs => rw [parseIPv4Loop]
  by_cases hi : i > 0
  · simp only [hi, if_true, List.length_cons, Nat.add_one_ne_zero, if_false, List.head?_cons,
      ne_eq, not_true_eq_false, List.tail_cons, hd]
    rw [if_neg ha', if_neg hz, List.drop_left, byte_ofNat_val]
  · simp only [hi, if_false, hne, hd]
    rw [if_neg ha', if_neg hz, List.drop_left, byte_ofNat_val]

theorem parseIPv4_dottedQuad (a b c d : Byte) : parseIPv4 (dottedQuad a b c d) = some (IPv4 a b c d) := by
  have hdot : ∀ (x : List Byte), ∀ y ∈ (46 :: x).head?, isNumber y = false := by
    intro x y hy
    simp only [List.head?_cons, Option.mem_def, Option.some.injEq] at hy
    subst hy; decide
  have h0 := parseIPv4Loop_octet 3 0 a (46 :: (octetText b.val ++ 46 :: (octetText c.val ++ 46 :: octetText d.val))) [] (hdot _)
  have h1 := parseIPv4Loop_octet 2 1 b (46 :: (octetText c.val ++ 46 :: octetText d.val)) [a] (hdot _)
  have h2 := parseIPv4Loop_octet 1 2 c (46 :: octetText d.val) [a, b] (hdot _)
  have h3 := parseIPv4Loop_octet 0 3 d [] [a, b, c] (by simp)
  simp only [gt_iff_lt, Nat.lt_irrefl, if_false, Nat.zero_lt_succ, if_true, Nat.zero_add,
    List.nil_append, List.cons_append, List.append_nil, Nat.lt_add_one, Nat.reduceAdd,
    Nat.reduceLT] at h0 h1 h2 h3
  unfold parseIPv4 dottedQuad
  rw [h0, h1, h2, h3]
  simp [parseIPv4Loop]

theorem ParseIPFrom_digits (s ds x : List Byte) (hd : ∀ b ∈ ds, isNumber b = true) :
    ParseIPFrom s (ds ++ 46 :: x) = parseIPv4 s := by
  induction ds with
  | nil => simp [ParseIPFrom]
  | cons c ds ih =>
    have hc := hd c (List.mem_cons_self _ _)
    have h46 := (isNumber_ne_dot_slash c hc).1
    have h58 : c ≠ 58 := by
      intro h; subst h; revert hc; decide
    simp only [List.cons_append, ParseIPFrom, h46, h58, if_false]
    exact ih (fun b hb => hd b (List.mem_cons_of_mem _ hb))

/-- `net.ParseIP` reads back a dotted quad. -/
theorem ParseIP_dottedQuad (a b c d : Byte) : ParseIP (dottedQuad a b c d) = some (IPv4 a b c d) := by
  unfold ParseIP
  have := ParseIPFrom_digits (dottedQuad a b c d) (octetText a.val)
    (octetText b.val ++ 46 :: (octetText c.val ++ 46 :: octetText d.val)) (octetText_digits _)
  rw [← parseIPv4_dottedQuad a b c d, ← this]
  rfl

theorem dottedQuad_bytes (a b c d : Byte) :
    ∀ x ∈ dottedQuad a b c d, isNumber x = true ∨ x = 46 := by
  intro x hx
  simp only [dottedQuad, List.mem_append, List.mem_cons] at hx
  rcases hx with h | h | h | h | h | h | h
  · exact Or.inl (octetText_digits _ x h)
  · exact Or.inr h
  · exact Or.inl (octetText_digits _ x h)
  · exact Or.inr h
  · exact Or.inl (octetText_digits _ x h)
  · exact Or.inr h
  · exact Or.inl (octetText_digits _ x h)

theorem dottedQuad_count (a b c d : Byte) :
    (dottedQuad a b c d).count 46 = 3 ∧ 47 ∉ dottedQuad a b c d := by
  have ha := digits_count_dot _ (octetText_digits a.val)
  have hb := digits_count_dot _ (octetText_digits b.val)
  have hc := digits_count_dot _ (octetText_digits c.val)
  have hd := digits_count_dot _ (octetText_digits d.val)
  constructor
  · simp [dottedQuad, List.count_append, List.count_cons, ha.1, hb.1, hc.1, hd.1]
  · have h : ¬ ((47 : Byte) = 46) := by decide
    simp [dottedQuad, ha.2, hb.2, hc.2, hd.2, h]

theorem dottedQuad_cons (a b c d : Byte) :
    ∃ x tl, dottedQuad a b c d = x :: tl ∧ isNumber x = true := by
  obtain ⟨x, tl, h, hx⟩ := octetText_cons a.val
  exact ⟨x, tl ++ 46 :: (octetText b.val ++ 46 :: (octetText c.val ++ 46 :: octetText d.val)),
    by simp [dottedQuad, h], hx⟩

/-! ### Every text accepted by `net.ParseIP` is a dotted quad -/

theorem dtoiLoop_ge (s : List Byte) (n i m c : Nat) (h : dtoiLoop n i s = some (m, c)) :
    n ≤ m ∧ i ≤ c := by
  induction s generalizing n i with
  | nil =>
    unfold dtoiLoop at h
    split at h
    · exact Option.noConfusion h
    · simp only [Option.some.injEq, Prod.mk.injEq] at h
      omega
  | cons x s ih =>
    unfold dtoiLoop at h
    split at h
    · split at h
      · exact Option.noConfusion h
      · have := ih _ _ h
        omega
    · split at h
      · exact Option.noConfusion h
      · simp only [Option.some.injEq, Prod.mk.injEq] at h
        omega

theorem dtoiLoop_cases (s : List Byte) (n i m c : Nat) (h : dtoiLoop n i s = some (m, c)) :
    (∃ x s', s = x :: s' ∧ isNumber x = true ∧
        dtoiLoop (n * 10 + (x.val - 48)) (i + 1) s' = some (m, c)) ∨
      (i ≠ 0 ∧ m = n ∧ c = i ∧ s.drop 0 = s ∧ ∀ x ∈ s.head?, isNumber x = false) := by
  cases s with
  | nil =>
    unfold dtoiLoop at h
    split at h
    · exact Option.noConfusion h
    · simp only [Option.some.injEq, Prod.mk.injEq] at h
      right
      refine ⟨by assumption, h.1.symm, h.2.symm, rfl, ?_⟩
      simp
  | cons x s =>
    unfold dtoiLoop at h
    split at h
    · rename_i hx
      split at h
      · exact Option.noConfusion h
      · left
        exact ⟨x, s, rfl, (isNumber_iff x).2 hx, h⟩
    · rename_i hx
      split at h
      · exact Option.noConfusion h
      · simp only [Option.some.injEq, Prod.mk.injEq] at h
        right
        refine ⟨by assumption, h.1.symm, h.2.symm, rfl, ?_⟩
        intro y hy
        simp only [List.head?_cons, Option.mem_def, Option.some.injEq] at hy
        subst hy
        cases hb : isNumber x with
        | false => rfl
        | true => exact absurd ((isNumber_iff x).1 hb) hx

theorem digitByte_eq (x : Byte) (k : Nat) (hx : isNumber x = true) (hk : k % 10 = x.val - 48) :
    digitByte k = x := by
  rw [isNumber_iff] at hx
  apply Fin.ext
  rw [digitByte_val]
  omega

/-- A text from which `net.dtoi` reads a value of at most 255 without a leading zero
starts with the decimal text of that value. -/
theorem dtoi_sound (s : List Byte) (n c : Nat) (h : dtoi s = some (n, c)) (hn : n ≤ 255)
    (hz : ¬ (c > 1 ∧ s.head? = some 48)) :
    s = octetText n ++ s.drop c := by
  unfold dtoi at h
  rcases dtoiLoop_cases s 0 0 n c h with ⟨x0, s1, hs, hx0, h1⟩ | ⟨hi, _⟩
  swap
  · exact absurd rfl hi
  subst hs
  have hv0 := (isNumber_iff x0).1 hx0
  rcases dtoiLoop_cases s1 _ _ n c h1 with ⟨x1, s2, hs, hx1, h2⟩ | ⟨_, hm, hc, _, _⟩
  swap
  · subst hm hc
    have hlt : 0 * 10 + (x0.val - 48) < 10 := by omega
    simp only [octetText, if_pos hlt, List.singleton_append, Nat.zero_add, List.drop_succ_cons,
      List.drop_zero]
    rw [digitByte_eq x0 _ hx0 (by omega)]
  subst hs
  have hv1 := (isNumber_iff x1).1 hx1
  have hc2 := (dtoiLoop_ge _ _ _ _ _ h2).2
  have hx048 : x0 ≠ 48 := by
    intro h48
    apply hz
    exact ⟨by omega, by simp [h48]⟩
  have hv0' : x0.val ≠ 48 := fun hval => hx048 (Fin.ext hval)
  rcases dtoiLoop_cases s2 _ _ n c h2 with ⟨x2, s3, hs, hx2, h3⟩ | ⟨_, hm, hc, _, _⟩
  swap
  · subst hm hc
    have h10 : ¬ ((0 * 10 + (x0.val - 48)) * 10 + (x1.val - 48) < 10) := by omega
    have h100 : (0 * 10 + (x0.val - 48)) * 10 + (x1.val - 48) < 100 := by omega
    simp only [octetText, if_neg h10, if_pos h100, List.cons_append, List.nil_append,
      Nat.zero_add, List.drop_succ_cons, List.drop_zero]
    rw [digitByte_eq x0 _ hx0 (by omega), digitByte_eq x1 _ hx1 (by omega)]
  subst hs
  have hv2 := (isNumber_iff x2).1 hx2
  rcases dtoiLoop_cases s3 _ _ n c h3 with ⟨x3, s4, hs, hx3, h4⟩ | ⟨_, hm, hc, _, _⟩
  swap
  · subst hm hc
    have h10 : ¬ (((0 * 10 + (x0.val - 48)) * 10 + (x1.val - 48)) * 10 + (x2.val - 48) < 10) := by
      omega
    have h100 : ¬ (((0 * 10 + (x0.val - 48)) * 10 + (x1.val - 48)) * 10 + (x2.val - 48) < 100) := by
      omega
    simp only [octetText, if_neg h10, if_neg h100, List.cons_append, List.nil_append,
      Nat.zero_add, List.drop_succ_cons, List.drop_zero]
    rw [digitByte_eq x0 _ hx0 (by omega), digitByte_eq x1 _ hx1 (by omega),
      digitByte_eq x2 _ hx2 (by omega)]
  have hge := (dtoiLoop_ge _ _ _ _ _ h4).1
  omega

theorem parseIPv4Loop_sound (k i : Nat) (s p : List Byte) (res : List Byte × List Byte)
    (h : parseIPv4Loop (k + 1) i s p = some res) :
    ∃ (a : Byte) (rest : List Byte),
      s = (if i > 0 then 46 :: (octetText a.val ++ rest) else octetText a.val ++ rest) ∧
      parseIPv4Loop k (i + 1) rest (p ++ [a]) = some res := by
  rw [parseIPv4Loop] at h
  split at h
  · exact Option.noConfusion h
  · simp only at h
    split at h
    · exact Option.noConfusion h
    · rename_i s1 hs1
      split at h
      · exact Option.noConfusion h
      · rename_i n c hd
        split at h
        · exact Option.noConfusion h
        · rename_i hn
          split at h
          · exact Option.noConfusion h
          · rename_i hz
            have hsound := dtoi_sound s1 n c hd (by omega) hz
            have hval : (Fin.ofNat n : Byte).val = n := by
              show n % 256 = n
              omega
            refine ⟨Fin.ofNat n, s1.drop c, ?_, h⟩
            rw [hval, ← hsound]
            by_cases hi : i > 0
            · rw [if_pos hi] at hs1 ⊢
              split at hs1
              · exact Option.noConfusion hs1
              · rename_i hhead
                simp only [Option.some.injEq] at hs1
                cases s with
                | nil => simp at hhead
                | cons x xs =>
                  simp only [List.head?_cons, ne_eq, Option.some.injEq, not_not] at hhead
                  simp only [List.tail_cons] at hs1
                  rw [hhead, hs1]
            · rw [if_neg hi] at hs1 ⊢
              simp only [Option.some.injEq] at hs1
              exact hs1

/-- Every text accepted by `net.parseIPv4` is a dotted quad, and the result is its
address. -/
theorem parseIPv4_sound (s ip : List Byte) (h : parseIPv4 s = some ip) :
    ∃ a b c d : Byte, s = dottedQuad a b c d ∧ ip = IPv4 a b c d := by
  unfold parseIPv4 at h
  cases hl : parseIPv4Loop 4 0 s [] with
  | none => rw [hl] at h; simp at h
  | some res =>
    obtain ⟨a, r1, hs0, h1⟩ := parseIPv4Loop_sound 3 0 s [] res hl
    obtain ⟨b, r2, hs1, h2⟩ := parseIPv4Loop_sound 2 1 r1 _ res h1
    obtain ⟨c, r3, hs2, h3⟩ := parseIPv4Loop_sound 1 2 r2 _ res h2
    obtain ⟨d, r4, hs3, h4⟩ := parseIPv4Loop_sound 0 3 r3 _ res h3
    simp only [gt_iff_lt, Nat.lt_irrefl, if_false, Nat.zero_lt_succ, if_true, Nat.zero_add,
      List.nil_append, List.cons_append, Nat.lt_add_one, Nat.reduceAdd, Nat.reduceLT] at hs0 hs1 hs2 hs3
    simp only [parseIPv4Loop, List.nil_append, List.cons_append, Option.some.injEq] at h4
    rw [hl, ← h4] at h
    cases r4 with
    | cons x xs => simp at h
    | nil =>
      simp only [Option.some.injEq] at h
      refine ⟨a, b, c, d, ?_, h.symm⟩
      rw [hs0, hs1, hs2, hs3]
      simp [dottedQuad]

theorem ParseIPFrom_sound (s t ip : List Byte) (h : ParseIPFrom s t = some ip) :
    parseIPv4 s = some ip := by
  induction t with
  | nil => simp [ParseIPFrom] at h
  | cons c t ih =>
    unfold ParseIPFrom at h
    split at h
    · exact h
    · split at h
      · simp [parseIPv6] at h
      · exact ih h

/-- Every text accepted by `net.ParseIP` as modelled is a dotted quad. -/
theorem ParseIP_sound (s ip : List Byte) (h : ParseIP s = some ip) :
    ∃ a b c d : Byte, s = dottedQuad a b c d ∧ ip = IPv4 a b c d :=
  parseIPv4_sound s ip (ParseIPFrom_sound s s ip h)

/-! ### Addresses and networks -/

/-- The form of `next_numeric_literal` that speaks of the whole literal. -/
theorem next_numeric_text (d : Decls) (l : lexer) (lit : List Byte) (t : Byte)
    (rest : List Byte) (hread : l.readPrev = false) (hbuf : l.buffer = [])
    (hr : l.r = lit ++ t :: rest) (hhead : ∃ x tl, lit = x :: tl ∧ isNumber x = true)
    (hlit : ∀ b ∈ lit, isNumber b = true ∨ b = 46 ∨ b = 47)
    (ht : isNumber t = false ∧ t ≠ 46 ∧ t ≠ 47) :
    next d l =
      match (classifyNumeric d lit (lit.count 46) (decide (47 ∈ lit))).map
          (fun x => { x with line := l.line }) with
      | [] => none
      | t0 :: more =>
        some (some t0, { l with r := t :: rest,
                                buffer := if more.length > 0 then more else [],
                                prev := some t0 }) := by
  obtain ⟨x, tl, hl, hx⟩ := hhead
  subst hl
  have hne := isNumber_ne_dot_slash x hx
  have hcount : (x :: tl).count 46 = tl.count 46 := by
    have h1 : (x == 46) = false := by simpa using hne.1
    simp [List.count_cons, h1]
  have hmem : decide (47 ∈ x :: tl) = decide (47 ∈ tl) := by
    have h2 : ¬ (47 = x) := fun h => hne.2 h.symm
    simp [h2]
  rw [hcount, hmem]
  exact next_numeric_literal d l x tl t rest hread hbuf hr hx
    (fun b hb => hlit b (List.mem_cons_of_mem _ hb)) ht

/-- C6: a dotted quad a.b.c.d (octets in decimal without leading zeros) followed by a
byte that is not a digit, `.` or `/` gives one IpAddress token whose value is the
address a.b.c.d, and a three-dot literal of digits and dots that is not such a dotted
quad gives one Illegal token; in both cases the terminating byte stays in the input and
the overflow buffer stays empty. -/
theorem C6_dotted_quad (d : Decls) (l : lexer) (t : Byte) (rest : List Byte)
    (hread : l.readPrev = false) (hbuf : l.buffer = [])
    (ht : isNumber t = false ∧ t ≠ 46 ∧ t ≠ 47) :
    (∀ a b c e : Byte, l.r = dottedQuad a b c e ++ t :: rest →
      next d l = some (some { token := token.IP_ADDRESS, value := Value.ip (IPv4 a b c e),
                              line := l.line },
        { l with r := t :: rest,
                 prev := some { token := token.IP_ADDRESS, value := Value.ip (IPv4 a b c e),
                                line := l.line } })) ∧
    (∀ (x : Byte) (lit : List Byte), l.r = x :: lit ++ t :: rest → isNumber x = true →
      (∀ b ∈ lit, isNumber b = true ∨ b = 46) → (x :: lit).count 46 = 3 →
      (∀ a b c e : Byte, x :: lit ≠ dottedQuad a b c e) →
      next d l = some (some { token := token.ILLEGAL, value := Value.nil, line := l.line },
        { l with r := t :: rest,
                 prev := some { token := token.ILLEGAL, value := Value.nil, line := l.line } })) := by
  obtain ⟨line, r, buffer, prev, readPrev⟩ := l
  simp only at hread hbuf
  subst hread hbuf
  constructor
  · intro a b c e hr
    simp only at hr
    have hbytes : ∀ y ∈ dottedQuad a b c e, isNumber y = true ∨ y = 46 ∨ y = 47 := by
      intro y hy
      rcases dottedQuad_bytes a b c e y hy with h | h
      · exact Or.inl h
      · exact Or.inr (Or.inl h)
    have hnext := next_numeric_text d
      { line := line, r := r, buffer := [], prev := prev, readPrev := false }
      (dottedQuad a b c e) t rest rfl rfl hr (dottedQuad_cons a b c e) hbytes ht
    have hcnt := dottedQuad_count a b c e
    rw [hcnt.1] at hnext
    simp only [hcnt.2, decide_False] at hnext
    rw [hnext]
    simp [classifyNumeric, ParseIP_dottedQuad]
  · intro x lit hr hx hlit hcnt hbad
    simp only at hr
    have hbytes : ∀ y ∈ x :: lit, isNumber y = true ∨ y = 46 ∨ y = 47 := by
      intro y hy
      rcases List.mem_cons.1 hy with h | h
      · subst h; exact Or.inl hx
      · rcases hlit y h with h' | h'
        · exact Or.inl h'
        · exact Or.inr (Or.inl h')
    have h47 : 47 ∉ x :: lit := by
      intro hmem
      rcases List.mem_cons.1 hmem with h | h
      · exact (isNumber_ne_dot_slash x hx).2 h.symm
      · rcases hlit 47 h with h' | h'
        · revert h'; decide
        · revert h'; decide
    have hnext := next_numeric_text d
      { line := line, r := r, buffer := [], prev := prev, readPrev := false }
      (x :: lit) t rest rfl rfl hr ⟨x, lit, rfl, hx⟩ hbytes ht
    rw [hcnt] at hnext
    simp only [h47, decide_False] at hnext
    have hnone : ParseIP (x :: lit) = none := by
      cases hp : ParseIP (x :: lit) with
      | none => rfl
      | some ip =>
        obtain ⟨a, b, c, e, hq, _⟩ := ParseIP_sound _ _ hp
        exact absurd hq (hbad a b c e)
    rw [hnext]
    simp [classifyNumeric, hnone]

set_option maxRecDepth 8000 in
theorem C6_dotted_quad_witness :
    next ⟨fun _ => token.other 0, token.other 1⟩ (newLexer (dottedQuad 192 168 1 1 ++ [32])) =
      some (some { token := token.IP_ADDRESS, value := Value.ip (IPv4 192 168 1 1), line := 1 },
        { newLexer (dottedQuad 192 168 1 1 ++ [32]) with
          r := [32],
          prev := some { token := token.IP_ADDRESS, value := Value.ip (IPv4 192 168 1 1),
                         line := 1 } }) ∧
    next ⟨fun _ => token.other 0, token.other 1⟩
        { line := 1, r := [57, 57, 57, 46, 49, 46, 49, 46, 49, 32], buffer := [], prev := none,
          readPrev := false } =
      some (some { token := token.ILLEGAL, value := Value.nil, line := 1 },
        { line := 1, r := [32], buffer := [],
          prev := some { token := token.ILLEGAL, value := Value.nil, line := 1 },
          readPrev := false }) :=
  ⟨(C6_dotted_quad ⟨fun _ => token.other 0, token.other 1⟩
      (newLexer (dottedQuad 192 168 1 1 ++ [32])) 32 [] rfl rfl (by decide)).1 192 168 1 1 rfl,
   (C6_dotted_quad ⟨fun _ => token.other 0, token.other 1⟩
      { line := 1, r := [57, 57, 57, 46, 49, 46, 49, 46, 49, 32], buffer := [], prev := none,
        readPrev := false } 32 [] rfl rfl (by decide)).2 57 [57, 57, 46, 49, 46, 49, 46, 49]
      rfl (by decide) (by decide) (by decide)
      (fun a b c e h => by
        have hp := ParseIP_dottedQuad a b c e
        have hnone : ParseIP [57, 57, 57, 46, 49, 46, 49, 46, 49] = none := by decide
        rw [← h, hnone] at hp
        exact Option.noConfusion hp)⟩

theorem cutSlash_append (pre post : List Byte) (h : 47 ∉ pre) :
    cutSlash (pre ++ 47 :: post) = some (pre, post) := by
  induction pre with
  | nil => simp [cutSlash]
  | cons x pre ih =>
    have hx : x ≠ 47 := fun hx => h (by simp [hx])
    have hpre : 47 ∉ pre := fun hp => h (List.mem_cons_of_mem _ hp)
    simp [cutSlash, hx, ih hpre]

theorem CIDRMaskLoop_eq_maskOfOnes (n : Nat) (hn : n ≤ 32) : CIDRMaskLoop 4 n = maskOfOnes n := by
  interval_cases n <;> decide

/-- `net.ParseCIDR` on a.b.c.d/n: the address and the mask with `n` leading one bits. -/
theorem ParseCIDR_dottedQuad (a b c e : Byte) (n : Nat) (hn : n ≤ 32) :
    ParseCIDR (dottedQuad a b c e ++ 47 :: octetText n) =
      some (IPv4 a b c e, maskOfOnes n) := by
  have hcut := cutSlash_append (dottedQuad a b c e) (octetText n) (dottedQuad_count a b c e).2
  have hd := dtoi_octetText n (by omega) [] (by simp)
  rw [List.append_nil] at hd
  unfold ParseCIDR
  simp only [hcut, parseIPv4_dottedQuad, hd]
  have h1 : ¬ ((octetText n).length ≠ (octetText n).length ∨ n > 8 * 4) := by omega
  rw [if_neg h1]
  have h2 : CIDRMask n (8 * 4) = some (CIDRMaskLoop 4 n) := by
    unfold CIDRMask
    rw [if_neg (by omega), if_neg (by omega)]
  rw [h2, CIDRMaskLoop_eq_maskOfOnes n hn]

/-- C5: a CIDR literal a.b.c.d/n (octets and n in decimal without leading zeros, n at most
32) followed by a byte that is not a digit, `.` or `/` gives two tokens: next returns an
IpAddress token holding the address a.b.c.d, and the following call of next returns an
IpAddress token holding the mask with n leading one bits, with the same line and
without reading any input. -/
theorem C5_cidr_two_tokens (d : Decls) (l : lexer) (a b c e : Byte) (n : Nat) (t : Byte)
    (rest : List Byte) (hread : l.readPrev = false) (hbuf : l.buffer = []) (hn : n ≤ 32)
    (ht : isNumber t = false ∧ t ≠ 46 ∧ t ≠ 47)
    (hr : l.r = (dottedQuad a b c e ++ 47 :: octetText n) ++ t :: rest) :
    next d l =
      some (some { token := token.IP_ADDRESS, value := Value.ip (IPv4 a b c e), line := l.line },
        { l with r := t :: rest,
                 buffer := [{ token := token.IP_ADDRESS, value := Value.ip (maskOfOnes n),
                              line := l.line }],
                 prev := some { token := token.IP_ADDRESS, value := Value.ip (IPv4 a b c e),
                                line := l.line } }) ∧
    next d { l with r := t :: rest,
                    buffer := [{ token := token.IP_ADDRESS, value := Value.ip (maskOfOnes n),
                                 line := l.line }],
                    prev := some { token := token.IP_ADDRESS, value := Value.ip (IPv4 a b c e),
                                   line := l.line } } =
      some (some { token := token.IP_ADDRESS, value := Value.ip (maskOfOnes n), line := l.line },
        { l with r := t :: rest,
                 buffer := [],
                 prev := some { token := token.IP_ADDRESS, value := Value.ip (maskOfOnes n),
                                line := l.line } }) := by
  obtain ⟨line, r, buffer, prev, readPrev⟩ := l
  simp only at hread hbuf hr
  subst hread hbuf
  have hq := dottedQuad_count a b c e
  have ho := digits_count_dot _ (octetText_digits n)
  have hbytes : ∀ y ∈ dottedQuad a b c e ++ 47 :: octetText n,
      isNumber y = true ∨ y = 46 ∨ y = 47 := by
    intro y hy
    rcases List.mem_append.1 hy with h | h
    · rcases dottedQuad_bytes a b c e y h with h' | h'
      · exact Or.inl h'
      · exact Or.inr (Or.inl h')
    · rcases List.mem_cons.1 h with h' | h'
      · exact Or.inr (Or.inr h')
      · exact Or.inl (octetText_digits n y h')
  have hhead : ∃ x tl, dottedQuad a b c e ++ 47 :: octetText n = x :: tl ∧ isNumber x = true := by
    obtain ⟨x, tl, hx, hnum⟩ := dottedQuad_cons a b c e
    exact ⟨x, tl ++ 47 :: octetText n, by rw [hx]; rfl, hnum⟩
  have hcount : (dottedQuad a b c e ++ 47 :: octetText n).count 46 = 3 := by
    have h : ((47 : Byte) == 46) = false := by decide
    simp [List.count_append, List.count_cons, hq.1, ho.1, h]
  have hmem : (47 : Byte) ∈ dottedQuad a b c e ++ 47 :: octetText n := by simp
  have hnext := next_numeric_text d
    { line := line, r := r, buffer := [], prev := prev, readPrev := false }
    (dottedQuad a b c e ++ 47 :: octetText n) t rest rfl rfl hr hhead hbytes ht
  rw [hcount] at hnext
  simp only [hmem, decide_True] at hnext
  constructor
  · rw [hnext]
    simp [classifyNumeric, ParseCIDR_dottedQuad a b c e n hn]
  · simp [next]

set_option maxRecDepth 8000 in
theorem C5_cidr_two_tokens_witness :
    next ⟨fun _ => token.other 0, token.other 1⟩
        (newLexer ((dottedQuad 10 0 0 0 ++ 47 :: octetText 24) ++ [32])) =
      some (some { token := token.IP_ADDRESS, value := Value.ip (IPv4 10 0 0 0), line := 1 },
        { newLexer ((dottedQuad 10 0 0 0 ++ 47 :: octetText 24) ++ [32]) with
          r := [32],
          buffer := [{ token := token.IP_ADDRESS, value := Value.ip (maskOfOnes 24), line := 1 }],
          prev := some { token := token.IP_ADDRESS, value := Value.ip (IPv4 10 0 0 0),
                         line := 1 } }) ∧
    next ⟨fun _ => token.other 0, token.other 1⟩
        { newLexer ((dottedQuad 10 0 0 0 ++ 47 :: octetText 24) ++ [32]) with
          r := [32],
          buffer := [{ token := token.IP_ADDRESS, value := Value.ip (maskOfOnes 24), line := 1 }],
          prev := some { token := token.IP_ADDRESS, value := Value.ip (IPv4 10 0 0 0),
                         line := 1 } } =
      some (some { token := token.IP_ADDRESS, value := Value.ip (maskOfOnes 24), line := 1 },
        { newLexer ((dottedQuad 10 0 0 0 ++ 47 :: octetText 24) ++ [32]) with
          r := [32],
          buffer := [],
          prev := some { token := token.IP_ADDRESS, value := Value.ip (maskOfOnes 24),
                         line := 1 } }) :=
  C5_cidr_two_tokens ⟨fun _ => token.other 0, token.other 1⟩
    (newLexer ((dottedQuad 10 0 0 0 ++ 47 :: octetText 24) ++ [32])) 10 0 0 0 24 32 []
    rfl rfl (by decide) (by decide) rfl

/-- The text and the mask of the example 10.0.0.0/24. -/
theorem cidr_example_text :
    dottedQuad 10 0 0 0 ++ 47 :: octetText 24 = bytes "10.0.0.0/24" ∧
      maskOfOnes 24 = [255, 255, 255, 0] ∧ dottedQuad 192 168 1 1 = bytes "192.168.1.1" := by
  decide

/-! ### Further facts about `next` -/

/-- What next records in `prev` when nothing is pending: the token it returns, except on
the end-of-input return, which leaves `prev` as it was. -/
theorem next_prev (d : Decls) (l : lexer) (t : lexToken) (l1 : lexer)
    (hread : l.readPrev = false) (h : next d l = some (some t, l1)) :
    l1.readPrev = false ∧
      (l1.prev = some t ∨
        (t = { token := token.EOF, value := Value.nil, line := 0 } ∧ l1.prev = l.prev)) := by
  obtain ⟨line, r, buffer, prev, readPrev⟩ := l
  simp only at hread
  subst hread
  cases buffer with
  | cons b bs =>
    simp only [next, Bool.false_eq_true, if_false, Option.some.injEq, Prod.mk.injEq] at h
    rw [← h.2, ← h.1]
    exact ⟨rfl, Or.inl rfl⟩
  | nil =>
    simp only [next, Bool.false_eq_true, if_false] at h
    cases hsc : scan d line r with
    | eof line' =>
      rw [hsc] at h
      simp only [Option.some.injEq, Prod.mk.injEq] at h
      rw [← h.2, ← h.1]
      exact ⟨rfl, Or.inr ⟨rfl, rfl⟩⟩
    | toks tk line' r' =>
      rw [hsc] at h
      cases tk with
      | nil => simp at h
      | cons t0 more =>
        simp only [List.map_cons, Option.some.injEq, Prod.mk.injEq] at h
        rw [← h.2, ← h.1]
        exact ⟨rfl, Or.inl rfl⟩

/-- After a call of next that recorded its token, unread followed by next returns that
token again and changes nothing else. -/
theorem unread_next_recorded (d : Decls) (t : lexToken) (l1 : lexer)
    (hread : l1.readPrev = false) (hprev : l1.prev = some t) :
    next d (unread l1) = some (some t, l1) := by
  obtain ⟨line, r, buffer, prev, readPrev⟩ := l1
  simp only at hread hprev
  subst hread hprev
  simp [next, unread]

/-- A literal with a slash and no dot reaches the integer branch and is assigned the
kind Illegal there. -/
theorem slash_without_dot_example (d : Decls) :
    next d (newLexer (bytes "1/2 ")) =
      some (some { token := token.ILLEGAL, value := Value.nil, line := 1 },
        { newLexer (bytes " ") with
          prev := some { token := token.ILLEGAL, value := Value.nil, line := 1 } }) := by
  rfl

/-- The second example of a malformed three-dot literal, `1..2.3`. -/
theorem empty_octet_example (d : Decls) :
    next d (newLexer (bytes "1..2.3 ")) =
      some (some { token := token.ILLEGAL, value := Value.nil, line := 1 },
        { newLexer (bytes " ") with
          prev := some { token := token.ILLEGAL, value := Value.nil, line := 1 } }) := by
  rfl

/-! ### Comments and identifiers -/

theorem consumeLineLoop_open (s : List Byte) (hs : ∀ b ∈ s, b ≠ 10) (buf : List Byte) :
    consumeLineLoop buf s = ([], []) := by
  induction s generalizing buf with
  | nil => simp [consumeLineLoop]
  | cons b s ih =>
    have hb : b ≠ 10 := hs b (List.mem_cons_self _ _)
    have hs' : ∀ x ∈ s, x ≠ 10 := fun x hx => hs x (List.mem_cons_of_mem _ hx)
    simp [consumeLineLoop, hb, ih hs']

/-- C11: a comment that runs to the end of the input without a newline gives a Comment
token whose value is the empty text, whatever bytes follow the `#`: at end of input the
comment scanner returns nil instead of the bytes it captured. -/
theorem C11_comment_at_end_of_input_is_empty (d : Decls) (l : lexer) (s : List Byte)
    (hread : l.readPrev = false) (hbuf : l.buffer = []) (hr : l.r = 35 :: s)
    (hs : ∀ b ∈ s, b ≠ 10) :
    next d l = some (some { token := token.COMMENT, value := Value.str [], line := l.line },
      { l with r := [],
               prev := some { token := token.COMMENT, value := Value.str [], line := l.line } }) := by
  cases l with
  | mk line r buffer prev readPrev =>
    simp only at hread hbuf hr
    subst hread hbuf hr
    have h35 : isNumber (35 : Byte) = false := by decide
    simp [next, scan, consumeLine, consumeLineLoop_open s hs, h35]

set_option maxRecDepth 8000 in
theorem C11_comment_at_end_of_input_is_empty_witness :
    next ⟨fun _ => token.other 0, token.other 1⟩ (newLexer (35 :: bytes " note")) =
      some (some { token := token.COMMENT, value := Value.str [], line := 1 },
        { newLexer (35 :: bytes " note") with
          r := [],
          prev := some { token := token.COMMENT, value := Value.str [], line := 1 } }) :=
  C11_comment_at_end_of_input_is_empty _ _ (bytes " note") rfl rfl rfl (by decide)

theorem consumeIdentLoop_run (r : List Byte) (w : Byte) (rest : List Byte)
    (hrun : ∀ b ∈ r, isWhitespace b = false) (hw : isWhitespace w = true) (buf : List Byte) :
    consumeIdentLoop buf (r ++ w :: rest) = (some (buf ++ r), w :: rest) := by
  induction r generalizing buf with
  | nil => simp [consumeIdentLoop, hw]
  | cons b r ih =>
    have hb : isWhitespace b = false := hrun b (List.mem_cons_self _ _)
    have hr' : ∀ x ∈ r, isWhitespace x = false := fun x hx => hrun x (List.mem_cons_of_mem _ hx)
    simp [consumeIdentLoop, hb, ih hr']

theorem isLetter_dispatch (c : Byte) (h : isLetter c = true) :
    c ≠ 34 ∧ isNumber c = false ∧ c ≠ 10 ∧ c ≠ 35 := by
  simp only [isLetter, decide_eq_true_eq] at h
  refine ⟨?_, ?_, ?_, ?_⟩
  · intro hc; subst hc; revert h; decide
  · simp only [isNumber, decide_eq_false_iff_not]; omega
  · intro hc; subst hc; revert h; decide
  · intro hc; subst hc; revert h; decide

/-- C12: a letter followed by a run of non-whitespace bytes and then a whitespace byte
gives one token whose value is the letter and the run and whose kind is lookup of that
text; the whitespace byte and what follows it stay in the input. Letter and whitespace
are the classes of the code's own classifiers. -/
theorem C12_identifier_run (d : Decls) (l : lexer) (c : Byte) (r : List Byte) (w : Byte)
    (rest : List Byte) (hread : l.readPrev = false) (hbuf : l.buffer = [])
    (hr : l.r = c :: (r ++ w :: rest)) (hc : isLetter c = true)
    (hrun : ∀ b ∈ r, isWhitespace b = false) (hw : isWhitespace w = true) :
    next d l = some (some { token := d.lookup (c :: r), value := Value.str (c :: r),
                            line := l.line },
      { l with r := w :: rest,
               prev := some { token := d.lookup (c :: r), value := Value.str (c :: r),
                              line := l.line } }) := by
  cases l with
  | mk line r0 buffer prev readPrev =>
    simp only at hread hbuf hr
    subst hread hbuf hr
    obtain ⟨h34, hnum, h10, h35⟩ := isLetter_dispatch c hc
    have hcw := isLetter_not_isWhitespace c hc
    have hrun' : ∀ b ∈ c :: r, isWhitespace b = false := by
      intro b hb
      rcases List.mem_cons.1 hb with h | h
      · subst h; exact hcw
      · exact hrun b h
    have hloop := consumeIdentLoop_run (c :: r) w rest hrun' hw []
    simp only [List.cons_append, List.nil_append] at hloop
    simp [next, scan, h34, hnum, h10, h35, hc, consumeIdent, hloop]

set_option maxRecDepth 8000 in
theorem C12_identifier_run_witness :
    next ⟨fun _ => token.other 0, token.other 1⟩ (newLexer (bytes "a1#;\"x\ty")) =
      some (some { token := token.other 0, value := Value.str (bytes "a1#;\"x"), line := 1 },
        { newLexer (bytes "a1#;\"x\ty") with
          r := bytes "\ty",
          prev := some { token := token.other 0, value := Value.str (bytes "a1#;\"x"),
                         line := 1 } }) :=
  C12_identifier_run ⟨fun _ => token.other 0, token.other 1⟩ (newLexer (bytes "a1#;\"x\ty"))
    97 (bytes "1#;\"x") 9 (bytes "y") rfl rfl (by decide) (by decide) (by decide) (by decide)

/-- C17: the end-of-input token is returned with line 0, not with the line counter: on
the empty input, and on the input `a` newline, where the identifier has line 1, the
line counter has reached 2 and the end-of-input token has line 0. -/
theorem C17_end_of_input_token_has_line_zero (d : Decls) :
    next d (newLexer []) =
      some (some { token := token.EOF, value := Value.nil, line := 0 }, newLexer []) ∧
    (∃ l1 l2,
      next d (newLexer (bytes "a\n")) =
        some (some { token := d.lookup (bytes "a"), value := Value.str (bytes "a"), line := 1 }, l1) ∧
      next d l1 = some (some { token := token.EOF, value := Value.nil, line := 0 }, l2) ∧
      l2.line = 2) := by
  exact ⟨rfl, _, _, rfl, rfl, rfl⟩

/-! ### The byte classifiers -/

/-- C18 fails on the code: the byte 0xE9 is a letter for the lexer and starts an
identifier, and the byte 0xA0 is whitespace for the lexer and ends it. -/
theorem C18_counterexample_latin1_bytes :
    isLetter 233 = true ∧ isAsciiLetter 233 = false ∧
    isWhitespace 160 = true ∧ isAsciiWhitespace 160 = false ∧
    next ⟨fun _ => token.other 0, token.other 1⟩ (newLexer [233, 160]) =
      some (some { token := token.other 0, value := Value.str [233], line := 1 },
        { newLexer [160] with
          prev := some { token := token.other 0, value := Value.str [233], line := 1 } }) := by
  decide

/-- C18 as amended: isNumber holds exactly on the ASCII digits; isLetter holds exactly on
the ASCII letters and the letters of the upper half of Latin-1; isWhitespace holds
exactly on the six ASCII whitespace bytes and on 0x85 and 0xA0; on the bytes below 0x80
the classifiers are the ASCII ones. -/
theorem C18_classifiers_are_latin1 (b : Byte) :
    (isNumber b = true ↔ 48 ≤ b.val ∧ b.val ≤ 57) ∧
    (isLetter b = true ↔ isAsciiLetter b = true ∨ isLatin1Letter b = true) ∧
    (isWhitespace b = true ↔ isAsciiWhitespace b = true ∨ b.val = 133 ∨ b.val = 160) ∧
    (b.val < 128 → isLetter b = isAsciiLetter b ∧ isWhitespace b = isAsciiWhitespace b) := by
  have hb := b.isLt
  refine ⟨isNumber_iff b, ?_, ?_, ?_⟩
  · simp only [isLetter, isAsciiLetter, isLatin1Letter, decide_eq_true_eq]
    omega
  · simp only [isWhitespace, isAsciiWhitespace, decide_eq_true_eq]
    omega
  · intro h
    constructor
    · simp only [isLetter, isAsciiLetter]
      apply decide_eq_decide.2
      omega
    · simp only [isWhitespace, isAsciiWhitespace]
      apply decide_eq_decide.2
      omega

theorem C18_classifiers_are_latin1_witness :
    isLetter 65 = isAsciiLetter 65 ∧ isWhitespace 65 = isAsciiWhitespace 65 :=
  (C18_classifiers_are_latin1 65).2.2.2 (by decide)

/-! ### The tokens the scanners build -/

theorem consumeStringLoop_shape (d : Decls) (r buf : List Byte) :
    ∀ t ∈ (consumeStringLoop buf r).1, scannerToken d t := by
  induction r generalizing buf with
  | nil => simp [consumeStringLoop]
  | cons b r ih =>
    unfold consumeStringLoop
    split
    · intro t ht
      simp only [List.mem_singleton] at ht
      subst ht
      exact Or.inl ⟨buf, rfl, rfl⟩
    · exact ih _

theorem consumeIdent_shape (d : Decls) (r : List Byte) :
    ∀ t ∈ (consumeIdent d r).1, scannerToken d t := by
  unfold consumeIdent
  generalize consumeIdentLoop [] r = x
  rcases x with ⟨_ | buf, r'⟩
  · simp
  · intro t ht
    simp only [List.mem_singleton] at ht
    subst ht
    exact Or.inr (Or.inr (Or.inl ⟨buf, rfl, rfl⟩))

theorem AtoiFastLoop_nonneg (s : List Byte) (a n : Int) (ha : 0 ≤ a)
    (h : AtoiFastLoop a s = some n) : 0 ≤ n := by
  induction s generalizing a with
  | nil =>
    simp only [AtoiFastLoop, Option.some.injEq] at h
    omega
  | cons ch s ih =>
    unfold AtoiFastLoop at h
    split at h
    · exact Option.noConfusion h
    · exact ih _ (by positivity) h

theorem ParseInt_nonneg (s : List Byte) (hminus : s.head? ≠ some 45)
    (h : (ParseInt s).2 = none) : 0 ≤ (ParseInt s).1 := by
  unfold ParseInt at h ⊢
  by_cases hnil : s = []
  · rw [if_pos hnil] at h
    exact absurd h (by simp)
  · rw [if_neg hnil] at h ⊢
    simp only [hminus, decide_False, Bool.not_false, true_and, Bool.false_eq_true, false_and,
      if_false] at h ⊢
    generalize ParseUint (if s.head? = some 43 ∨ False then s.tail else s) = pu at h ⊢
    obtain ⟨un, e⟩ := pu
    cases e with
    | none =>
      simp only at h ⊢
      by_cases hbig : un ≥ 2 ^ 63
      · rw [if_pos hbig] at h
        exact absurd h (by simp)
      · rw [if_neg hbig]
        exact Int.natCast_nonneg un
    | some err =>
      cases err with
      | ErrSyntax => exact absurd h (by simp)
      | ErrRange =>
        simp only at h ⊢
        by_cases hbig : un ≥ 2 ^ 63
        · rw [if_pos hbig] at h
          exact absurd h (by simp)
        · rw [if_neg hbig]
          exact Int.natCast_nonneg un

/-- `strconv.Atoi` returns no negative number on a text that does not start with `-`. -/
theorem Atoi_nonneg (s : List Byte) (n : Int) (hminus : s.head? ≠ some 45)
    (h : Atoi s = some n) : 0 ≤ n := by
  unfold Atoi at h
  by_cases hshort : 0 < s.length ∧ s.length < 19
  · rw [if_pos hshort] at h
    simp only [hminus, false_or, if_false] at h
    generalize (if s.head? = some 43 then s.tail else s) = s1 at h
    by_cases hl : s1.length < 1
    · rw [if_pos hl] at h
      exact Option.noConfusion h
    · rw [if_neg hl] at h
      cases hf : AtoiFastLoop 0 s1 with
      | none =>
        rw [hf] at h
        exact Option.noConfusion h
      | some m =>
        rw [hf] at h
        simp only [Option.some.injEq] at h
        rw [← h]
        exact AtoiFastLoop_nonneg _ 0 m (le_refl 0) hf
  · rw [if_neg hshort] at h
    have hp := ParseInt_nonneg s hminus
    generalize ParseInt s = pi at h hp
    obtain ⟨i64, e⟩ := pi
    cases e with
    | none =>
      simp only [Option.some.injEq] at h
      rw [← h]
      exact hp rfl
    | some err => exact Option.noConfusion h

theorem consumeNumericLoop_buf (r buf : List Byte) (dotCount : Nat) (hasSlash : Bool)
    (b' : List Byte) (dc' : Nat) (hs' : Bool) (r' : List Byte)
    (h : consumeNumericLoop buf dotCount hasSlash r = some (b', dc', hs', r')) :
    ∃ x, b' = buf ++ x := by
  induction r generalizing buf dotCount hasSlash with
  | nil => simp [consumeNumericLoop] at h
  | cons b r ih =>
    unfold consumeNumericLoop at h
    split at h
    · obtain ⟨x, hx⟩ := ih _ _ _ h
      exact ⟨b :: x, by rw [hx]; simp⟩
    · split at h
      · obtain ⟨x, hx⟩ := ih _ _ _ h
        exact ⟨b :: x, by rw [hx]; simp⟩
      · split at h
        · obtain ⟨x, hx⟩ := ih _ _ _ h
          exact ⟨b :: x, by rw [hx]; simp⟩
        · simp only [Option.some.injEq, Prod.mk.injEq] at h
          exact ⟨[], by rw [← h.1]; simp⟩

theorem classifyNumeric_shape (d : Decls) (buf : List Byte) (dotCount : Nat) (hasSlash : Bool)
    (hminus : buf.head? ≠ some 45) :
    ∀ t ∈ classifyNumeric d buf dotCount hasSlash, scannerToken d t := by
  intro t ht
  unfold classifyNumeric at ht
  split at ht
  · split at ht
    · simp only [List.mem_singleton] at ht
      subst ht
      exact Or.inr (Or.inr (Or.inr (Or.inl ⟨rfl, rfl⟩)))
    · rename_i ip mask _
      simp only [List.mem_cons, List.mem_singleton, List.not_mem_nil, or_false] at ht
      rcases ht with ht | ht <;> subst ht
      · exact Or.inr (Or.inr (Or.inr (Or.inr (Or.inl ⟨ip, rfl, rfl⟩))))
      · exact Or.inr (Or.inr (Or.inr (Or.inr (Or.inl ⟨mask, rfl, rfl⟩))))
  · split at ht
    · split at ht
      · simp only [List.mem_singleton] at ht
        subst ht
        exact Or.inr (Or.inr (Or.inr (Or.inl ⟨rfl, rfl⟩)))
      · rename_i ip _
        simp only [List.mem_singleton] at ht
        subst ht
        exact Or.inr (Or.inr (Or.inr (Or.inr (Or.inl ⟨ip, rfl, rfl⟩))))
    · split at ht
      · split at ht
        · simp only [List.mem_singleton] at ht
          subst ht
          exact Or.inr (Or.inr (Or.inr (Or.inl ⟨rfl, rfl⟩)))
        · rename_i num hnum
          simp only [List.mem_singleton] at ht
          subst ht
          exact Or.inr (Or.inr (Or.inr (Or.inr (Or.inr (Or.inl
            ⟨num, Atoi_nonneg buf num hminus hnum, rfl, rfl⟩)))))
      · simp only [List.mem_singleton] at ht
        subst ht
        exact Or.inr (Or.inr (Or.inr (Or.inr (Or.inr (Or.inr ⟨rfl, rfl⟩)))))

theorem consumeNumeric_shape (d : Decls) (c : Byte) (r : List Byte) (hc : isNumber c = true) :
    ∀ t ∈ (consumeNumeric d (c :: r)).1, scannerToken d t := by
  unfold consumeNumeric
  have hstep : consumeNumericLoop [] 0 false (c :: r) = consumeNumericLoop ([] ++ [c]) 0 false r := by
    simp [consumeNumericLoop, hc]
  rw [hstep]
  cases hx : consumeNumericLoop ([] ++ [c]) 0 false r with
  | none => simp
  | some x =>
    obtain ⟨b', dc', hs', r'⟩ := x
    obtain ⟨y, hy⟩ := consumeNumericLoop_buf r _ _ _ _ _ _ _ hx
    have hhead : b'.head? ≠ some 45 := by
      rw [hy]
      simp only [List.nil_append, List.singleton_append, List.head?_cons, ne_eq,
        Option.some.injEq]
      intro h45
      subst h45
      revert hc
      decide
    exact classifyNumeric_shape d b' dc' hs' hhead

/-- Every token of a pass of the classification loop is one the sub-scanners build. -/
theorem scan_toks_shape (d : Decls) (r : List Byte) (line : Nat) (tok : List lexToken)
    (line' : Nat) (r' : List Byte) (h : scan d line r = Scan.toks tok line' r') :
    ∀ t ∈ tok, scannerToken d t := by
  induction r generalizing line with
  | nil => simp [scan] at h
  | cons c r ih =>
    unfold scan at h
    split at h
    · simp only [Scan.toks.injEq] at h
      rw [← h.1]
      exact consumeStringLoop_shape d r []
    · split at h
      · rename_i hnum
        simp only [Scan.toks.injEq] at h
        rw [← h.1]
        exact consumeNumeric_shape d c r hnum
      · split at h
        · exact ih _ h
        · split at h
          · simp only [Scan.toks.injEq] at h
            rw [← h.1]
            intro t ht
            simp only [List.mem_singleton] at ht
            subst ht
            exact Or.inr (Or.inl ⟨_, rfl, rfl⟩)
          · split at h
            · simp only [Scan.toks.injEq] at h
              rw [← h.1]
              exact consumeIdent_shape d (c :: r)
            · exact ih _ h

/-! ### Tokens held and returned along a sequence of calls -/

theorem stored_newLexer (P : lexToken → Prop) (input : List Byte) : stored P (newLexer input) := by
  constructor
  · intro t ht
    simp [newLexer] at ht
  · intro t ht
    simp [newLexer] at ht

theorem stored_unread (P : lexToken → Prop) (l : lexer) (h : stored P l) : stored P (unread l) :=
  h

/-- A call of next returns a token that was held, a token the sub-scanners build (with
its line assigned), or the end-of-input token; in the last case nothing was pending and
the lexer is left at the end of the input with an empty buffer. What the lexer holds
afterwards was held before or was built in this call. -/
theorem next_stored (d : Decls) (P : lexToken → Prop)
    (hP : ∀ t n, scannerToken d t → P { t with line := n })
    (l : lexer) (x : Option lexToken) (l' : lexer) (hinv : stored P l)
    (h : next d l = some (x, l')) :
    stored P l' ∧
      ∀ t, x = some t →
        P t ∨ (t = { token := token.EOF, value := Value.nil, line := 0 } ∧
          l'.readPrev = false ∧ l'.buffer = [] ∧ l'.r = [] ∧ l'.prev = l.prev) := by
  obtain ⟨line, r, buffer, prev, readPrev⟩ := l
  obtain ⟨hb, hp⟩ := hinv
  simp only at hb hp
  cases readPrev with
  | true =>
    simp only [next, if_true, Option.some.injEq, Prod.mk.injEq] at h
    rw [← h.2, ← h.1]
    exact ⟨⟨hb, hp⟩, fun t ht => Or.inl (hp t ht)⟩
  | false =>
    cases buffer with
    | cons b bs =>
      simp only [next, Bool.false_eq_true, if_false, Option.some.injEq, Prod.mk.injEq] at h
      rw [← h.2, ← h.1]
      have hPb : P b := hb b (List.mem_cons_self _ _)
      refine ⟨⟨fun t ht => hb t (List.mem_cons_of_mem _ ht), ?_⟩, ?_⟩
      · intro t ht
        simp only [Option.some.injEq] at ht
        rw [← ht]; exact hPb
      · intro t ht
        simp only [Option.some.injEq] at ht
        rw [← ht]; exact Or.inl hPb
    | nil =>
      simp only [next, Bool.false_eq_true, if_false] at h
      cases hsc : scan d line r with
      | eof line' =>
        rw [hsc] at h
        simp only [Option.some.injEq, Prod.mk.injEq] at h
        rw [← h.2, ← h.1]
        refine ⟨⟨fun t ht => by simp at ht, hp⟩, ?_⟩
        intro t ht
        simp only [Option.some.injEq] at ht
        exact Or.inr ⟨ht.symm, rfl, rfl, rfl, rfl⟩
      | toks tk line' r' =>
        rw [hsc] at h
        have hshape := scan_toks_shape d r line tk line' r' hsc
        cases tk with
        | nil => simp at h
        | cons t0 more =>
          simp only [List.map_cons, Option.some.injEq, Prod.mk.injEq] at h
          have hP0 : P { t0 with line := line' } := hP t0 line' (hshape t0 (List.mem_cons_self _ _))
          have hmore : ∀ t ∈ more.map (fun t => { t with line := line' }), P t := by
            intro t ht
            obtain ⟨u, hu, rfl⟩ := List.mem_map.1 ht
            exact hP u line' (hshape u (List.mem_cons_of_mem _ hu))
          rw [← h.2, ← h.1]
          refine ⟨⟨?_, ?_⟩, ?_⟩
          · intro t ht
            simp only at ht
            split at ht
            · exact hmore t ht
            · simp at ht
          · intro t ht
            simp only [Option.some.injEq] at ht
            rw [← ht]; exact hP0
          · intro t ht
            simp only [Option.some.injEq] at ht
            rw [← ht]; exact Or.inl hP0

theorem calls_stored (d : Decls) (P : lexToken → Prop)
    (hP : ∀ t n, scannerToken d t → P { t with line := n })
    (ops : List Call) (l l' : lexer) (hinv : stored P l) (h : calls d ops l = some l') :
    stored P l' := by
  induction ops generalizing l with
  | nil =>
    simp only [calls, Option.some.injEq] at h
    rw [← h]; exact hinv
  | cons c ops ih =>
    cases c with
    | next =>
      simp only [calls] at h
      cases hn : next d l with
      | none => rw [hn] at h; exact Option.noConfusion h
      | some y =>
        obtain ⟨x, l1⟩ := y
        rw [hn] at h
        exact ih l1 (next_stored d P hP l x l1 hinv hn).1 h
    | unread =>
      simp only [calls] at h
      exact ih _ (stored_unread P l hinv) h

/-- Every token returned by next after any sequence of calls on a fresh lexer satisfies
a property that holds of the tokens the sub-scanners build, whatever their line, or is
the end-of-input token returned with nothing pending. -/
theorem next_after_calls (d : Decls) (P : lexToken → Prop)
    (hP : ∀ t n, scannerToken d t → P { t with line := n })
    (input : List Byte) (ops : List Call) (l : lexer) (t : lexToken) (l' : lexer)
    (hreach : calls d ops (newLexer input) = some l) (h : next d l = some (some t, l')) :
    P t ∨ (t = { token := token.EOF, value := Value.nil, line := 0 } ∧
      l'.readPrev = false ∧ l'.buffer = [] ∧ l'.r = [] ∧ l'.prev = l.prev) :=
  (next_stored d P hP l (some t) l'
    (calls_stored d P hP ops _ l (stored_newLexer P input) hreach) h).2 t rfl

/-- With a keyword table that returns only identifier and keyword kinds, every token
returned by next after any sequence of calls on a fresh lexer carries the payload its
kind determines, or is the token of an unhandled numeric shape, whose kind is the zero
value of the kind type and whose value is nil. -/
theorem payload_or_unassigned (d : Decls) (hl : ∀ s, ∃ n, d.lookup s = token.other n)
    (input : List Byte) (ops : List Call) (l : lexer) (t : lexToken) (l' : lexer)
    (hreach : calls d ops (newLexer input) = some l) (h : next d l = some (some t, l')) :
    payloadOk t = true ∨ (t.token = d.zeroKind ∧ t.value = Value.nil) := by
  have hP : ∀ t n, scannerToken d t →
      (fun u : lexToken => payloadOk u = true ∨ (u.token = d.zeroKind ∧ u.value = Value.nil))
        { t with line := n } := by
    intro t n ht
    obtain ⟨tk, v, ln⟩ := t
    simp only [scannerToken] at ht
    rcases ht with ⟨s, h1, h2⟩ | ⟨s, h1, h2⟩ | ⟨s, h1, h2⟩ | ⟨h1, h2⟩ | ⟨p, h1, h2⟩ |
      ⟨m, _, h1, h2⟩ | ⟨h1, h2⟩
    · subst h1 h2; exact Or.inl rfl
    · subst h1 h2; exact Or.inl rfl
    · obtain ⟨k, hk⟩ := hl s
      rw [hk] at h1
      subst h1 h2; exact Or.inl rfl
    · subst h1 h2; exact Or.inl rfl
    · subst h1 h2; exact Or.inl rfl
    · subst h1 h2; exact Or.inl rfl
    · exact Or.inr ⟨h1, h2⟩
  rcases next_after_calls d
      (fun u : lexToken => payloadOk u = true ∨ (u.token = d.zeroKind ∧ u.value = Value.nil))
      hP input ops l t l' hreach h with h1 | h1
  · exact h1
  · rw [h1.1]; exact Or.inl rfl

/-- C13: with a keyword table that returns only identifier and keyword kinds, and with
Illegal or EndOfInput as the zero value of the kind type, every token returned by next
after any sequence of next and unread calls on a fresh lexer carries the payload its
kind determines: text for String, Comment and identifier or keyword tokens, an integer
for Number, an address for IpAddress, no value for EndOfInput and Illegal. -/
theorem C13_payload_follows_kind (d : Decls) (hl : ∀ s, ∃ n, d.lookup s = token.other n)
    (hz : d.zeroKind = token.ILLEGAL ∨ d.zeroKind = token.EOF)
    (input : List Byte) (ops : List Call) (l : lexer) (t : lexToken) (l' : lexer)
    (hreach : calls d ops (newLexer input) = some l) (h : next d l = some (some t, l')) :
    payloadOk t = true := by
  rcases payload_or_unassigned d hl input ops l t l' hreach h with h1 | ⟨hk, hv⟩
  · exact h1
  · obtain ⟨tk, v, ln⟩ := t
    simp only at hk hv
    subst hv
    rcases hz with hz | hz
    · rw [hk, hz]; rfl
    · rw [hk, hz]; rfl

set_option maxRecDepth 8000 in
theorem C13_payload_follows_kind_witness :
    payloadOk { token := token.IP_ADDRESS, value := Value.ip (maskOfOnes 24), line := 2 } = true ∧
      payloadOk { token := token.ILLEGAL, value := Value.nil, line := 1 } = true :=
  ⟨C13_payload_follows_kind ⟨fun _ => token.other 0, token.ILLEGAL⟩ (fun _ => ⟨0, rfl⟩)
      (Or.inl rfl) (bytes "\n10.0.0.0/24 x") [Call.next, Call.unread, Call.next]
      { line := 2, r := bytes " x",
        buffer := [{ token := token.IP_ADDRESS, value := Value.ip (maskOfOnes 24), line := 2 }],
        prev := some { token := token.IP_ADDRESS, value := Value.ip (IPv4 10 0 0 0), line := 2 },
        readPrev := false }
      { token := token.IP_ADDRESS, value := Value.ip (maskOfOnes 24), line := 2 }
      { line := 2, r := bytes " x", buffer := [],
        prev := some { token := token.IP_ADDRESS, value := Value.ip (maskOfOnes 24), line := 2 },
        readPrev := false }
      (by decide) (by decide),
   C13_payload_follows_kind ⟨fun _ => token.other 0, token.ILLEGAL⟩ (fun _ => ⟨0, rfl⟩)
      (Or.inl rfl) (bytes "42.5 ") [] (newLexer (bytes "42.5 "))
      { token := token.ILLEGAL, value := Value.nil, line := 1 }
      { newLexer (bytes " ") with
        prev := some { token := token.ILLEGAL, value := Value.nil, line := 1 } }
      rfl (by decide)⟩

/-- C16: with a keyword table that returns only identifier and keyword kinds and a zero
kind other than EndOfInput, once next has returned a token of kind EndOfInput after any
sequence of calls on a fresh lexer, the next call returns the end-of-input token again
and leaves the whole lexer (line counter, overflow buffer, previous token, input) as it
was, and so does every further run of next calls. -/
theorem C16_end_of_input_repeats (d : Decls) (hl : ∀ s, ∃ n, d.lookup s = token.other n)
    (hz : d.zeroKind ≠ token.EOF) (input : List Byte) (ops : List Call) (l : lexer)
    (t : lexToken) (l1 : lexer) (hreach : calls d ops (newLexer input) = some l)
    (h : next d l = some (some t, l1)) (ht : t.token = token.EOF) :
    next d l1 = some (some { token := token.EOF, value := Value.nil, line := 0 }, l1) ∧
      ∀ n, calls d (List.replicate n Call.next) l1 = some l1 := by
  have hP : ∀ t n, scannerToken d t →
      (fun u : lexToken => u.token ≠ token.EOF) { t with line := n } := by
    intro t n ht
    obtain ⟨tk, v, ln⟩ := t
    simp only [scannerToken] at ht
    simp only [ne_eq]
    rcases ht with ⟨s, h1, _⟩ | ⟨s, h1, _⟩ | ⟨s, h1, _⟩ | ⟨h1, _⟩ | ⟨p, h1, _⟩ |
      ⟨m, _, h1, _⟩ | ⟨h1, _⟩
    · rw [h1]; exact fun h => token.noConfusion h
    · rw [h1]; exact fun h => token.noConfusion h
    · obtain ⟨k, hk⟩ := hl s
      rw [h1, hk]; exact fun h => token.noConfusion h
    · rw [h1]; exact fun h => token.noConfusion h
    · rw [h1]; exact fun h => token.noConfusion h
    · rw [h1]; exact fun h => token.noConfusion h
    · rw [h1]; exact hz
  have hstep : next d l1 =
      some (some { token := token.EOF, value := Value.nil, line := 0 }, l1) := by
    rcases next_after_calls d (fun u : lexToken => u.token ≠ token.EOF) hP input ops l t l1
      hreach h with h1 | ⟨_, hr1, hb1, hin1, _⟩
    · exact absurd ht h1
    · obtain ⟨line, r, buffer, prev, readPrev⟩ := l1
      simp only at hr1 hb1 hin1
      subst hr1 hb1 hin1
      simp [next, scan]
  refine ⟨hstep, ?_⟩
  intro n
  induction n with
  | zero => rfl
  | succ k ih =>
    simp only [List.replicate_succ, calls, hstep]
    exact ih

set_option maxRecDepth 8000 in
theorem C16_end_of_input_repeats_witness :
    next ⟨fun _ => token.other 0, token.other 1⟩
        { line := 2, r := [], buffer := [],
          prev := some { token := token.other 0, value := Value.str [97], line := 1 },
          readPrev := false } =
      some (some { token := token.EOF, value := Value.nil, line := 0 },
        { line := 2, r := [], buffer := [],
          prev := some { token := token.other 0, value := Value.str [97], line := 1 },
          readPrev := false }) ∧
      ∀ n, calls ⟨fun _ => token.other 0, token.other 1⟩ (List.replicate n Call.next)
          { line := 2, r := [], buffer := [],
            prev := some { token := token.other 0, value := Value.str [97], line := 1 },
            readPrev := false } =
        some { line := 2, r := [], buffer := [],
               prev := some { token := token.other 0, value := Value.str [97], line := 1 },
               readPrev := false } :=
  C16_end_of_input_repeats ⟨fun _ => token.other 0, token.other 1⟩ (fun _ => ⟨0, rfl⟩)
    (by decide) [97, 32, 10] [Call.next]
    { line := 1, r := [32, 10], buffer := [],
      prev := some { token := token.other 0, value := Value.str [97], line := 1 },
      readPrev := false }
    { token := token.EOF, value := Value.nil, line := 0 }
    { line := 2, r := [], buffer := [],
      prev := some { token := token.other 0, value := Value.str [97], line := 1 },
      readPrev := false }
    (by decide) (by decide) rfl

/-- C20: with a keyword table that returns only identifier and keyword kinds and a zero
kind other than Number, every token of kind Number returned by next after any sequence
of calls on a fresh lexer holds an integer that is at least 0; the input `-5` followed
by a space gives the single token Number 5. -/
theorem C20_number_tokens_are_nonnegative (d : Decls)
    (hl : ∀ s, ∃ n, d.lookup s = token.other n) (hz : d.zeroKind ≠ token.NUMBER) :
    (∀ (input : List Byte) (ops : List Call) (l : lexer) (t : lexToken) (l' : lexer),
      calls d ops (newLexer input) = some l → next d l = some (some t, l') →
      t.token = token.NUMBER → ∃ n : Int, 0 ≤ n ∧ t.value = Value.int n) ∧
    all d (newLexer (bytes "-5 ")) =
      Run.ret [{ token := token.NUMBER, value := Value.int 5, line := 1 }] := by
  refine ⟨?_, rfl⟩
  intro input ops l t l' hreach h hnum
  have hP : ∀ t n, scannerToken d t →
      (fun u : lexToken => u.token = token.NUMBER → ∃ m : Int, 0 ≤ m ∧ u.value = Value.int m)
        { t with line := n } := by
    intro t n ht
    obtain ⟨tk, v, ln⟩ := t
    simp only [scannerToken] at ht
    intro hk
    simp only at hk
    rcases ht with ⟨s, h1, _⟩ | ⟨s, h1, _⟩ | ⟨s, h1, _⟩ | ⟨h1, _⟩ | ⟨p, h1, _⟩ |
      ⟨m, hm, _, h2⟩ | ⟨h1, _⟩
    · rw [h1] at hk; exact token.noConfusion hk
    · rw [h1] at hk; exact token.noConfusion hk
    · obtain ⟨k, hk'⟩ := hl s
      rw [h1, hk'] at hk; exact token.noConfusion hk
    · rw [h1] at hk; exact token.noConfusion hk
    · rw [h1] at hk; exact token.noConfusion hk
    · exact ⟨m, hm, h2⟩
    · rw [h1] at hk; exact absurd hk hz
  rcases next_after_calls d
      (fun u : lexToken => u.token = token.NUMBER → ∃ m : Int, 0 ≤ m ∧ u.value = Value.int m)
      hP input ops l t l' hreach h with h1 | h1
  · exact h1 hnum
  · rw [h1.1] at hnum
    exact token.noConfusion hnum

set_option maxRecDepth 8000 in
theorem C20_number_tokens_are_nonnegative_witness :
    ∃ n : Int, 0 ≤ n ∧
      ({ token := token.NUMBER, value := Value.int 5, line := 1 } : lexToken).value = Value.int n :=
  (C20_number_tokens_are_nonnegative ⟨fun _ => token.other 0, token.other 1⟩
      (fun _ => ⟨0, rfl⟩) (by decide)).1 (bytes "-5 ") [] (newLexer (bytes "-5 "))
      { token := token.NUMBER, value := Value.int 5, line := 1 }
      { newLexer (bytes " ") with
        prev := some { token := token.NUMBER, value := Value.int 5, line := 1 } }
      rfl (by decide) rfl

/-! ### Lines of the tokens of `all` -/

theorem scan_line_le (d : Decls) (r : List Byte) (line : Nat) :
    (∀ line', scan d line r = Scan.eof line' → line ≤ line') ∧
      (∀ tok line' r', scan d line r = Scan.toks tok line' r' → line = line' ∨ line < line') := by
  induction r generalizing line with
  | nil =>
    constructor
    · intro line' h
      simp only [scan, Scan.eof.injEq] at h
      omega
    · intro tok line' r' h
      simp [scan] at h
  | cons c r ih =>
    have ih1 := ih (line + 1)
    have ih0 := ih line
    constructor
    · intro line' h
      unfold scan at h
      split at h
      · exact Scan.noConfusion h
      · split at h
        · exact Scan.noConfusion h
        · split at h
          · have := ih1.1 line' h
            omega
          · split at h
            · exact Scan.noConfusion h
            · split at h
              · exact Scan.noConfusion h
              · exact ih0.1 line' h
    · intro tok line' r' h
      unfold scan at h
      split at h
      · simp only [Scan.toks.injEq] at h
        exact Or.inl h.2.1
      · split at h
        · simp only [Scan.toks.injEq] at h
          exact Or.inl h.2.1
        · split at h
          · rcases ih1.2 tok line' r' h with h' | h' <;> right <;> omega
          · split at h
            · simp only [Scan.toks.injEq] at h
              exact Or.inl h.2.1
            · split at h
              · simp only [Scan.toks.injEq] at h
                exact Or.inl h.2.1
              · exact ih0.2 tok line' r' h

/-- A call of next with nothing pending, on a lexer whose buffered tokens carry the
current line: the line counter does not decrease, the buffered tokens carry the new
line, and the returned token carries the new line unless it is the end-of-input
token. -/
theorem next_lines (d : Decls) (l : lexer) (t : lexToken) (l' : lexer)
    (hread : l.readPrev = false) (hbl : ∀ u ∈ l.buffer, u.line = l.line)
    (h : next d l = some (some t, l')) :
    l'.readPrev = false ∧ l.line ≤ l'.line ∧ (∀ u ∈ l'.buffer, u.line = l'.line) ∧
      (t.line = l'.line ∨ t = { token := token.EOF, value := Value.nil, line := 0 }) := by
  obtain ⟨line, r, buffer, prev, readPrev⟩ := l
  simp only at hread hbl
  subst hread
  cases buffer with
  | cons b bs =>
    simp only [next, Bool.false_eq_true, if_false, Option.some.injEq, Prod.mk.injEq] at h
    rw [← h.2, ← h.1]
    refine ⟨rfl, le_refl _, fun u hu => hbl u (List.mem_cons_of_mem _ hu),
      Or.inl (hbl b (List.mem_cons_self _ _))⟩
  | nil =>
    simp only [next, Bool.false_eq_true, if_false] at h
    have hle := scan_line_le d r line
    cases hsc : scan d line r with
    | eof line' =>
      rw [hsc] at h
      simp only [Option.some.injEq, Prod.mk.injEq] at h
      rw [← h.2, ← h.1]
      exact ⟨rfl, hle.1 line' hsc, fun u hu => by simp at hu, Or.inr rfl⟩
    | toks tk line' r' =>
      rw [hsc] at h
      cases tk with
      | nil => simp at h
      | cons t0 more =>
        simp only [List.map_cons, Option.some.injEq, Prod.mk.injEq] at h
        rw [← h.2, ← h.1]
        refine ⟨rfl, ?_, ?_, Or.inl rfl⟩
        · rcases hle.2 _ _ _ hsc with h' | h' <;> simp only <;> omega
        · intro u hu
          simp only at hu
          split at hu
          · obtain ⟨v, _, rfl⟩ := List.mem_map.1 hu
            rfl
          · simp at hu

theorem allLoop_lines (d : Decls) (fuel : Nat) (l : lexer) (acc toks : List lexToken)
    (hread : l.readPrev = false) (hbl : ∀ u ∈ l.buffer, u.line = l.line)
    (hacc : ∀ a ∈ acc, a.line ≤ l.line)
    (hsorted : acc.Pairwise (fun a b => a.line ≤ b.line))
    (h : allLoop d fuel l acc = Run.ret toks) :
    toks.Pairwise (fun a b => a.line ≤ b.line) := by
  induction fuel generalizing l acc with
  | zero => simp [allLoop] at h
  | succ n ih =>
    unfold allLoop at h
    cases hn : next d l with
    | none => rw [hn] at h; simp at h
    | some x =>
      obtain ⟨t, l'⟩ := x
      rw [hn] at h
      cases t with
      | none => simp at h
      | some tok =>
        by_cases he : tok.token = token.EOF
        · simp only [he, if_true, Run.ret.injEq] at h
          rw [← h]; exact hsorted
        · simp only [he, if_false] at h
          obtain ⟨hr', hle, hbl', htl⟩ := next_lines d l tok l' hread hbl hn
          have htok : tok.line = l'.line := by
            rcases htl with h1 | h1
            · exact h1
            · rw [h1] at he
              exact absurd rfl he
          refine ih l' (acc ++ [tok]) hr' hbl' ?_ ?_ h
          · intro a ha
            rcases List.mem_append.1 ha with h1 | h1
            · have := hacc a h1
              omega
            · rw [List.mem_singleton.1 h1, htok]
          · rw [List.pairwise_append]
            refine ⟨hsorted, List.pairwise_singleton _ _, ?_⟩
            intro a ha b hb
            rw [List.mem_singleton.1 hb, htok]
            have := hacc a ha
            omega

/-- C14: when all on a fresh lexer returns a token sequence, the lines of its tokens
never decrease along the sequence. -/
theorem C14_lines_never_decrease (d : Decls) (input : List Byte) (toks : List lexToken)
    (h : all d (newLexer input) = Run.ret toks) :
    toks.Pairwise (fun a b => a.line ≤ b.line) :=
  allLoop_lines d _ (newLexer input) [] toks rfl (fun u hu => by simp [newLexer] at hu)
    (fun a ha => by simp at ha) List.Pairwise.nil h

set_option maxRecDepth 8000 in
theorem C14_lines_never_decrease_witness :
    List.Pairwise (fun a b : lexToken => a.line ≤ b.line)
      [{ token := token.other 0, value := Value.str [97], line := 1 },
       { token := token.NUMBER, value := Value.int 7, line := 3 }] :=
  C14_lines_never_decrease ⟨fun _ => token.other 0, token.other 1⟩ [97, 10, 10, 55, 32] _
    (by decide)

/-! ### What follows a malformed numeric literal -/

theorem allLoop_prev_irrelevant (d : Decls) (fuel : Nat) (l : lexer) (p : Option lexToken)
    (acc : List lexToken) (hread : l.readPrev = false) :
    allLoop d fuel { l with prev := p } acc = allLoop d fuel l acc := by
  obtain ⟨line, r, buffer, prev, readPrev⟩ := l
  simp only at hread
  subst hread
  cases fuel with
  | zero => rfl
  | succ n =>
    cases buffer with
    | cons b bs => simp [allLoop, next]
    | nil =>
      cases hsc : scan d line r with
      | eof line' => simp [allLoop, next, hsc]
      | toks tk line' r' =>
        cases tk with
        | nil => simp [allLoop, next, hsc]
        | cons t0 more => simp [allLoop, next, hsc]

/-- C15: a numeric literal that the scanner classifies as malformed (three dots and a
slash rejected by ParseCIDR, three dots without a slash rejected by ParseIP, or no dot
rejected by Atoi), followed by a terminating byte, gives exactly one Illegal token: the
overflow buffer stays empty, exactly the bytes of the literal are consumed, the line
counter is unchanged, and the tokens that all returns from there are those of lexing
the terminating byte and the rest from the same line counter. -/
theorem C15_illegal_literal_one_token (d : Decls) (l : lexer) (lit : List Byte) (t : Byte)
    (rest : List Byte) (hread : l.readPrev = false) (hbuf : l.buffer = [])
    (hr : l.r = lit ++ t :: rest) (hhead : ∃ x tl, lit = x :: tl ∧ isNumber x = true)
    (hlit : ∀ b ∈ lit, isNumber b = true ∨ b = 46 ∨ b = 47)
    (ht : isNumber t = false ∧ t ≠ 46 ∧ t ≠ 47)
    (hbad : (lit.count 46 = 3 ∧ 47 ∈ lit ∧ ParseCIDR lit = none) ∨
      (lit.count 46 = 3 ∧ 47 ∉ lit ∧ ParseIP lit = none) ∨
      (lit.count 46 = 0 ∧ Atoi lit = none)) :
    next d l = some (some { token := token.ILLEGAL, value := Value.nil, line := l.line },
      { l with r := t :: rest,
               prev := some { token := token.ILLEGAL, value := Value.nil, line := l.line } }) ∧
    all d { l with r := t :: rest,
                   prev := some { token := token.ILLEGAL, value := Value.nil, line := l.line } } =
      all d { l with r := t :: rest } := by
  have hnext := next_numeric_text d l lit t rest hread hbuf hr hhead hlit ht
  obtain ⟨line, r, buffer, prev, readPrev⟩ := l
  simp only at hread hbuf hr
  subst hread hbuf hr
  constructor
  · rw [hnext]
    rcases hbad with ⟨h3, hs, hp⟩ | ⟨h3, hs, hp⟩ | ⟨h0, hp⟩
    · simp [classifyNumeric, h3, hs, hp]
    · simp [classifyNumeric, h3, hs, hp]
    · simp [classifyNumeric, h0, hp]
  · exact allLoop_prev_irrelevant d _
      { line := line, r := t :: rest, buffer := [], prev := prev, readPrev := false } _ [] rfl

set_option maxRecDepth 8000 in
theorem C15_illegal_literal_one_token_witness :
    next ⟨fun _ => token.other 0, token.other 1⟩ (newLexer (bytes "1.2.3.4/33 x ")) =
      some (some { token := token.ILLEGAL, value := Value.nil, line := 1 },
        { newLexer (bytes "1.2.3.4/33 x ") with
          r := bytes " x ",
          prev := some { token := token.ILLEGAL, value := Value.nil, line := 1 } }) ∧
    all ⟨fun _ => token.other 0, token.other 1⟩
        { newLexer (bytes "1.2.3.4/33 x ") with
          r := bytes " x ",
          prev := some { token := token.ILLEGAL, value := Value.nil, line := 1 } } =
      all ⟨fun _ => token.other 0, token.other 1⟩
        { newLexer (bytes "1.2.3.4/33 x ") with r := bytes " x " } :=
  C15_illegal_literal_one_token ⟨fun _ => token.other 0, token.other 1⟩
    (newLexer (bytes "1.2.3.4/33 x ")) (bytes "1.2.3.4/33") 32 (bytes "x ") rfl rfl (by decide)
    ⟨49, bytes ".2.3.4/33", by decide, by decide⟩ (by decide) (by decide)
    (Or.inl (by decide))

/-! ### Newline bytes and the line counter -/

theorem count_newline_cons (b : Byte) (x : List Byte) (hb : b ≠ 10) :
    (b :: x).count 10 = x.count 10 := by
  have h : (b == 10) = false := by simpa using hb
  simp [List.count_cons, h]

theorem consumeNumericLoop_split (r buf : List Byte) (dotCount : Nat) (hasSlash : Bool)
    (b' : List Byte) (dc' : Nat) (hs' : Bool) (r' : List Byte)
    (h : consumeNumericLoop buf dotCount hasSlash r = some (b', dc', hs', r')) :
    ∃ x, r = x ++ r' ∧ x.count 10 = 0 := by
  induction r generalizing buf dotCount hasSlash with
  | nil => simp [consumeNumericLoop] at h
  | cons b r ih =>
    unfold consumeNumericLoop at h
    split at h
    · rename_i hb
      obtain ⟨x, hx, hc⟩ := ih _ _ _ h
      have hne : b ≠ 10 := by
        intro h10; subst h10; revert hb; decide
      exact ⟨b :: x, by rw [hx]; rfl, by rw [count_newline_cons b x hne]; exact hc⟩
    · split at h
      · rename_i hb
        obtain ⟨x, hx, hc⟩ := ih _ _ _ h
        have hne : b ≠ 10 := by
          intro h10; subst h10; revert hb; decide
        exact ⟨b :: x, by rw [hx]; rfl, by rw [count_newline_cons b x hne]; exact hc⟩
      · split at h
        · rename_i hb
          obtain ⟨x, hx, hc⟩ := ih _ _ _ h
          have hne : b ≠ 10 := by
            intro h10; subst h10; revert hb; decide
          exact ⟨b :: x, by rw [hx]; rfl, by rw [count_newline_cons b x hne]; exact hc⟩
        · simp only [Option.some.injEq, Prod.mk.injEq] at h
          exact ⟨[], by rw [← h.2.2.2]; rfl, rfl⟩

theorem consumeLineLoop_split (r buf : List Byte) :
    ∃ x, r = x ++ (consumeLineLoop buf r).2 ∧ x.count 10 = 0 := by
  induction r generalizing buf with
  | nil => exact ⟨[], by simp [consumeLineLoop], rfl⟩
  | cons b r ih =>
    unfold consumeLineLoop
    split
    · exact ⟨[], rfl, rfl⟩
    · rename_i hb
      obtain ⟨x, hx, hc⟩ := ih (buf ++ [b])
      exact ⟨b :: x, by rw [List.cons_append, ← hx], by rw [count_newline_cons b x hb]; exact hc⟩

theorem consumeIdentLoop_split (r buf : List Byte) :
    ∃ x, r = x ++ (consumeIdentLoop buf r).2 ∧ x.count 10 = 0 := by
  induction r generalizing buf with
  | nil => exact ⟨[], by simp [consumeIdentLoop], rfl⟩
  | cons b r ih =>
    unfold consumeIdentLoop
    split
    · exact ⟨[], rfl, rfl⟩
    · rename_i hb
      obtain ⟨x, hx, hc⟩ := ih (buf ++ [b])
      have hne : b ≠ 10 := by
        intro h10; subst h10; revert hb; decide
      exact ⟨b :: x, by rw [List.cons_append, ← hx], by rw [count_newline_cons b x hne]; exact hc⟩

/-- On input without a double quote, a pass of the classification loop raises the line
counter by the number of newline bytes it consumes. -/
theorem scan_count (d : Decls) (r : List Byte) (line : Nat) (hq : ∀ b ∈ r, b ≠ 34) :
    (∀ line', scan d line r = Scan.eof line' → line' = line + r.count 10) ∧
      (∀ tok line' r', scan d line r = Scan.toks tok line' r' → tok ≠ [] →
        ∃ x, r = x ++ r' ∧ line' = line + x.count 10) := by
  induction r generalizing line with
  | nil =>
    constructor
    · intro line' h
      simp only [scan, Scan.eof.injEq] at h
      simp [h]
    · intro tok line' r' h
      simp [scan] at h
  | cons c r ih =>
    have hq' : ∀ b ∈ r, b ≠ 34 := fun b hb => hq b (List.mem_cons_of_mem _ hb)
    have hc34 : c ≠ 34 := hq c (List.mem_cons_self _ _)
    have ih1 := ih (line + 1) hq'
    have ih0 := ih line hq'
    constructor
    · intro line' h
      unfold scan at h
      rw [if_neg hc34] at h
      split at h
      · exact Scan.noConfusion h
      · split at h
        · rename_i h10
          have := ih1.1 line' h
          rw [h10, List.count_cons_self]
          omega
        · split at h
          · exact Scan.noConfusion h
          · split at h
            · exact Scan.noConfusion h
            · rename_i h10 _ _
              rw [count_newline_cons c r h10]
              exact ih0.1 line' h
    · intro tok line' r' h hne
      unfold scan at h
      rw [if_neg hc34] at h
      split at h
      · simp only [Scan.toks.injEq] at h
        obtain ⟨htok, hline, hr'⟩ := h
        unfold consumeNumeric at htok hr'
        cases hloop : consumeNumericLoop [] 0 false (c :: r) with
        | none =>
          rw [hloop] at htok
          exact absurd htok.symm hne
        | some y =>
          obtain ⟨b', dc', hs', r''⟩ := y
          rw [hloop] at hr'
          simp only at hr'
          obtain ⟨x, hx, hc⟩ := consumeNumericLoop_split _ _ _ _ _ _ _ _ hloop
          exact ⟨x, by rw [← hr']; exact hx, by rw [hc]; omega⟩
      · split at h
        · rename_i h10
          obtain ⟨x, hx, hl⟩ := ih1.2 tok line' r' h hne
          refine ⟨c :: x, by rw [hx]; rfl, ?_⟩
          rw [h10, List.count_cons_self]
          omega
        · split at h
          · rename_i h10 h35
            simp only [Scan.toks.injEq] at h
            obtain ⟨_, hline, hr'⟩ := h
            obtain ⟨x, hx, hc⟩ := consumeLineLoop_split r []
            refine ⟨c :: x, ?_, ?_⟩
            · rw [← hr', List.cons_append]
              exact congrArg _ hx
            · rw [count_newline_cons c x h10, hc]
              omega
          · split at h
            · rename_i h10 _ hlet
              simp only [Scan.toks.injEq] at h
              obtain ⟨htok, hline, hr'⟩ := h
              unfold consumeIdent at htok hr'
              obtain ⟨x, hx, hc⟩ := consumeIdentLoop_split (c :: r) []
              generalize consumeIdentLoop [] (c :: r) = y at htok hr' hx
              obtain ⟨ob, r''⟩ := y
              cases ob with
              | none => exact absurd htok.symm hne
              | some buf =>
                simp only at hr' hx
                exact ⟨x, by rw [← hr']; exact hx, by rw [hc]; omega⟩
            · rename_i h10 _ _
              obtain ⟨x, hx, hl⟩ := ih0.2 tok line' r' h hne
              refine ⟨c :: x, by rw [hx]; rfl, ?_⟩
              rw [count_newline_cons c x h10]
              exact hl

/-- A call of next with nothing pending, on input without a double quote and with
buffered tokens that carry the current line: the line counter rises by the number of
newline bytes consumed, and the returned token carries the new line unless it is the
end-of-input token. -/
theorem next_count (d : Decls) (l : lexer) (t : lexToken) (l' : lexer)
    (hread : l.readPrev = false) (hq : ∀ b ∈ l.r, b ≠ 34)
    (hbl : ∀ u ∈ l.buffer, u.line = l.line) (h : next d l = some (some t, l')) :
    l'.readPrev = false ∧ (∀ u ∈ l'.buffer, u.line = l'.line) ∧
      (t.line = l'.line ∨ t = { token := token.EOF, value := Value.nil, line := 0 }) ∧
      ∃ x, l.r = x ++ l'.r ∧ l'.line = l.line + x.count 10 := by
  obtain ⟨hr', _, hbl', htl⟩ := next_lines d l t l' hread hbl h
  refine ⟨hr', hbl', htl, ?_⟩
  obtain ⟨line, r, buffer, prev, readPrev⟩ := l
  simp only at hread hq
  subst hread
  cases buffer with
  | cons b bs =>
    simp only [next, Bool.false_eq_true, if_false, Option.some.injEq, Prod.mk.injEq] at h
    rw [← h.2]
    exact ⟨[], rfl, rfl⟩
  | nil =>
    simp only [next, Bool.false_eq_true, if_false] at h
    have hcount := scan_count d r line hq
    cases hsc : scan d line r with
    | eof line' =>
      rw [hsc] at h
      simp only [Option.some.injEq, Prod.mk.injEq] at h
      rw [← h.2]
      exact ⟨r, by simp, hcount.1 line' hsc⟩
    | toks tk line' r' =>
      rw [hsc] at h
      cases tk with
      | nil => simp at h
      | cons t0 more =>
        simp only [List.map_cons, Option.some.injEq, Prod.mk.injEq] at h
        rw [← h.2]
        exact hcount.2 _ _ _ hsc (List.cons_ne_nil _ _)

theorem calls_count (d : Decls) (n : Nat) (l l' : lexer)
    (hread : l.readPrev = false) (hq : ∀ b ∈ l.r, b ≠ 34)
    (hbl : ∀ u ∈ l.buffer, u.line = l.line)
    (h : calls d (List.replicate n Call.next) l = some l') :
    l'.readPrev = false ∧ (∀ u ∈ l'.buffer, u.line = l'.line) ∧
      ∃ x, l.r = x ++ l'.r ∧ l'.line = l.line + x.count 10 := by
  induction n generalizing l with
  | zero =>
    simp only [List.replicate_zero, calls, Option.some.injEq] at h
    rw [← h]
    exact ⟨hread, hbl, [], rfl, rfl⟩
  | succ k ih =>
    simp only [List.replicate_succ, calls] at h
    cases hn : next d l with
    | none => rw [hn] at h; exact Option.noConfusion h
    | some y =>
      obtain ⟨x, l1⟩ := y
      rw [hn] at h
      simp only at h
      cases x with
      | none =>
        obtain ⟨line, r, buffer, prev, readPrev⟩ := l
        simp only at hread
        subst hread
        cases buffer with
        | cons b bs => simp [next] at hn
        | nil =>
          simp only [next, Bool.false_eq_true, if_false] at hn
          cases hsc : scan d line r with
          | eof line' => rw [hsc] at hn; simp at hn
          | toks tk line' r' =>
            rw [hsc] at hn
            cases tk with
            | nil => simp at hn
            | cons t0 more => simp at hn
      | some t =>
        obtain ⟨hr1, hbl1, _, x1, hx1, hl1⟩ := next_count d l t l1 hread hq hbl hn
        have hq1 : ∀ b ∈ l1.r, b ≠ 34 := by
          intro b hb
          exact hq b (by rw [hx1]; exact List.mem_append_right _ hb)
        obtain ⟨hr2, hbl2, x2, hx2, hl2⟩ := ih l1 hr1 hq1 hbl1 h
        refine ⟨hr2, hbl2, x1 ++ x2, ?_, ?_⟩
        · rw [hx1, hx2, List.append_assoc]
        · rw [hl2, hl1, List.count_append]
          omega

/-- C19 fails as stated: on the input of two string literals that each hold one newline
byte, followed by `x`, the token `x` has line 1, while two newline bytes precede it in
the input and the first literal holds one of them (k = 1): its line is not 2 - 1 + 1. -/
theorem C19_counterexample_second_string :
    all ⟨fun _ => token.other 0, token.other 1⟩
        (newLexer [34, 10, 34, 32, 34, 10, 34, 32, 120, 32]) =
      Run.ret [{ token := token.STRING, value := Value.str [10], line := 1 },
               { token := token.STRING, value := Value.str [10], line := 1 },
               { token := token.other 0, value := Value.str [120], line := 1 }] ∧
    (([34, 10, 34, 32, 34, 10, 34, 32, 120, 32] : List Byte).take 8).count 10 = 2 ∧
    ([34, 10, 34, 32, 34, 10, 34, 32, 120, 32] : List Byte).drop 8 = [120, 32] ∧
    ([10] : List Byte).count 10 = 1 ∧
    (1 : Nat) ≠ 2 - 1 + 1 := by
  decide

/-- C19 as amended: the String token of a literal without an inner double quote has the
current line L, and the line counter stays at L whatever newline bytes the literal
holds. When the rest of the input holds no double quote, every token that a later call
of next returns (the end-of-input token apart) has for line L plus the number of
newline bytes consumed from the rest, that is, the number of newline bytes consumed
since the opening quote, less those inside the literal. -/
theorem C19_string_newlines_not_counted (d : Decls) (l : lexer) (s rest : List Byte)
    (hread : l.readPrev = false) (hbuf : l.buffer = []) (hr : l.r = 34 :: (s ++ 34 :: rest))
    (hs : ∀ b ∈ s, b ≠ 34) (hrest : ∀ b ∈ rest, b ≠ 34) :
    next d l = some (some { token := token.STRING, value := Value.str s, line := l.line },
      { l with r := rest,
               prev := some { token := token.STRING, value := Value.str s, line := l.line } }) ∧
    ∀ (n : Nat) (l' : lexer) (t : lexToken) (l'' : lexer),
      calls d (List.replicate n Call.next)
        { l with r := rest,
                 prev := some { token := token.STRING, value := Value.str s, line := l.line } } =
        some l' →
      next d l' = some (some t, l'') →
      t ≠ { token := token.EOF, value := Value.nil, line := 0 } →
      ∃ x, l.r = 34 :: (s ++ 34 :: x) ++ l''.r ∧
        t.line + s.count 10 = l.line + (34 :: (s ++ 34 :: x)).count 10 := by
  obtain ⟨line, r, buffer, prev, readPrev⟩ := l
  simp only at hread hbuf hr
  subst hread hbuf hr
  constructor
  · simp [next, scan, consumeString, consumeStringLoop_closed s rest hs]
  · intro n l' t l'' hcalls hnext hne
    obtain ⟨hr1, hbl1, x1, hx1, hl1⟩ := calls_count d n _ l' rfl hrest
      (fun u hu => by simp at hu) hcalls
    simp only at hx1 hl1
    have hq1 : ∀ b ∈ l'.r, b ≠ 34 := by
      intro b hb
      exact hrest b (by rw [hx1]; exact List.mem_append_right _ hb)
    obtain ⟨_, _, htl, x2, hx2, hl2⟩ := next_count d l' t l'' hr1 hq1 hbl1 hnext
    have hline : t.line = l''.line := by
      rcases htl with h1 | h1
      · exact h1
      · exact absurd h1 hne
    refine ⟨x1 ++ x2, ?_, ?_⟩
    · simp only [List.cons_append, List.append_assoc, List.cons.injEq, true_and]
      rw [hx1, hx2]
    · have h34 : ((34 : Byte) == 10) = false := by decide
      rw [hline, hl2, hl1]
      simp only [List.count_cons, List.count_append, h34]
      simp
      omega

set_option maxRecDepth 8000 in
theorem C19_string_newlines_not_counted_witness :
    ∃ x, ([34, 97, 10, 98, 34, 10, 120, 32] : List Byte) = 34 :: ([97, 10, 98] ++ 34 :: x) ++ [32] ∧
      1 + 1 + ([97, 10, 98] : List Byte).count 10 =
        1 + (34 :: (([97, 10, 98] : List Byte) ++ 34 :: x)).count 10 :=
  (C19_string_newlines_not_counted ⟨fun _ => token.other 0, token.other 1⟩
      (newLexer [34, 97, 10, 98, 34, 10, 120, 32]) [97, 10, 98] [10, 120, 32] rfl rfl rfl
      (by decide) (by decide)).2 0
      { newLexer [10, 120, 32] with
        prev := some { token := token.STRING, value := Value.str [97, 10, 98], line := 1 } }
      { token := token.other 0, value := Value.str [120], line := 1 + 1 }
      { line := 2, r := [32], buffer := [],
        prev := some { token := token.other 0, value := Value.str [120], line := 2 },
        readPrev := false }
      rfl (by decide) (by decide)

/-! ### Lines of the tokens returned from a fresh lexer -/

theorem next_returns_token (d : Decls) (l : lexer) (x : Option lexToken) (l' : lexer)
    (hread : l.readPrev = false) (h : next d l = some (x, l')) : ∃ t, x = some t := by
  obtain ⟨line, r, buffer, prev, readPrev⟩ := l
  simp only at hread
  subst hread
  cases buffer with
  | cons b bs =>
    simp only [next, Bool.false_eq_true, if_false, Option.some.injEq, Prod.mk.injEq] at h
    exact ⟨b, h.1.symm⟩
  | nil =>
    simp only [next, Bool.false_eq_true, if_false] at h
    cases hsc : scan d line r with
    | eof line' =>
      rw [hsc] at h
      simp only [Option.some.injEq, Prod.mk.injEq] at h
      exact ⟨_, h.1.symm⟩
    | toks tk line' r' =>
      rw [hsc] at h
      cases tk with
      | nil => simp at h
      | cons t0 more =>
        simp only [List.map_cons, Option.some.injEq, Prod.mk.injEq] at h
        exact ⟨_, h.1.symm⟩

theorem calls_lines (d : Decls) (n : Nat) (l l' : lexer)
    (hread : l.readPrev = false) (hbl : ∀ u ∈ l.buffer, u.line = l.line)
    (h : calls d (List.replicate n Call.next) l = some l') :
    l'.readPrev = false ∧ (∀ u ∈ l'.buffer, u.line = l'.line) ∧ l.line ≤ l'.line := by
  induction n generalizing l with
  | zero =>
    simp only [List.replicate_zero, calls, Option.some.injEq] at h
    rw [← h]
    exact ⟨hread, hbl, le_refl _⟩
  | succ k ih =>
    simp only [List.replicate_succ, calls] at h
    cases hn : next d l with
    | none => rw [hn] at h; exact Option.noConfusion h
    | some y =>
      obtain ⟨x, l1⟩ := y
      rw [hn] at h
      simp only at h
      obtain ⟨t, ht⟩ := next_returns_token d l x l1 hread hn
      subst ht
      obtain ⟨hr1, hle1, hbl1, _⟩ := next_lines d l t l1 hread hbl hn
      obtain ⟨hr2, hbl2, hle2⟩ := ih l1 hr1 hbl1 h
      exact ⟨hr2, hbl2, by omega⟩

/-- Along a run of next calls on a fresh lexer, every returned token other than the
end-of-input token carries the line counter reached when its production completes, and
that line is at least 1. -/
theorem fresh_token_line (d : Decls) (input : List Byte) (n : Nat) (l : lexer) (t : lexToken)
    (l' : lexer) (hreach : calls d (List.replicate n Call.next) (newLexer input) = some l)
    (h : next d l = some (some t, l')) :
    (t.line = l'.line ∧ 1 ≤ t.line) ∨
      t = { token := token.EOF, value := Value.nil, line := 0 } := by
  obtain ⟨hr1, hbl1, hle1⟩ := calls_lines d n (newLexer input) l rfl
    (fun u hu => by simp [newLexer] at hu) hreach
  obtain ⟨_, hle2, _, htl⟩ := next_lines d l t l' hr1 hbl1 h
  rcases htl with h1 | h1
  · left
    refine ⟨h1, ?_⟩
    have : (newLexer input).line = 1 := rfl
    omega
  · exact Or.inr h1

end Dhcp
